import Mathlib

/-!
Verification development for the transcript acquisition and normalization
subsystem of the `my_ebooks_YC` pipeline.

Python strings are modelled as `List Char` (`Str`).  Whitespace, case and
upper-case tests are modelled at ASCII fidelity (the repository only feeds
ASCII-relevant data through these predicates).  Times parsed from caption
XML (`float(...)` in the source) are modelled as exact rationals in an
unreduced-fraction representation `Ti` (numerator/denominator, denominator
kept positive by construction), so that all comparisons are exact and
kernel-computable; float rounding is not modelled.
-/

abbrev Str := List Char

/-- ASCII whitespace, as matched by Python `str.split()` / `str.strip()` /
regex `\s` on ASCII input. -/
def isSpace (c : Char) : Bool :=
  c = ' ' || c = '\t' || c = '\n' || c = '\r' || c = '\x0b' || c = '\x0c'

/-- Python `str.strip()`: drop ASCII whitespace from both ends. -/
def pyStrip (s : Str) : Str :=
  ((s.dropWhile isSpace).reverse.dropWhile isSpace).reverse

/-- Helper for `pySplitWs`: accumulate the current word (reversed). -/
def splitWsGo (cur : Str) : Str → List Str
  | [] => if cur = [] then [] else [cur.reverse]
  | c :: r =>
    if isSpace c then
      if cur = [] then splitWsGo [] r else cur.reverse :: splitWsGo [] r
    else splitWsGo (c :: cur) r

/-- Python `str.split()` with no argument: split on whitespace runs,
discarding empty tokens. -/
def pySplitWs (s : Str) : List Str := splitWsGo [] s

/-- Python `" ".join(...)`. -/
def joinSp : List Str → Str
  | [] => []
  | [x] => x
  | x :: xs => x ++ ' ' :: joinSp xs

/-- Python `sep.join(...)` for an arbitrary separator. -/
def joinWith (sep : Str) : List Str → Str
  | [] => []
  | [x] => x
  | x :: xs => x ++ sep ++ joinWith sep xs

/-- Helper for `collapseWs`: `inRun` records whether we are inside a
whitespace run whose single replacement space was already emitted. -/
def collapseGo (inRun : Bool) : Str → Str
  | [] => []
  | c :: r =>
    if isSpace c then
      if inRun then collapseGo true r else ' ' :: collapseGo true r
    else c :: collapseGo false r

/-- Python `re.sub(r"\s+", " ", p)`: replace every whitespace run by a
single space. -/
def collapseWs (s : Str) : Str := collapseGo false s

/-- The final paragraph cleanup `re.sub(r"\s+", " ", p).strip()` used by all
three caption normalizers. -/
def pyCollapse (s : Str) : Str := pyStrip (collapseWs s)

/-- `hasPrefB p s` holds when `p` is a leading segment of `s`
(Python `s.startswith(p)`). -/
def hasPrefB : Str → Str → Bool
  | [], _ => true
  | _ :: _, [] => false
  | a :: p, b :: s => a = b && hasPrefB p s

/-- Python `s.endswith(p)`. -/
def hasSuffB (p s : Str) : Bool := hasPrefB p.reverse s.reverse

/-- `p` occurs in `s` at offset `i`. -/
def occursAt (s p : Str) (i : Nat) : Bool := hasPrefB p (s.drop i)

/-- Python `p in s` (contiguous substring test), as a left-to-right scan
over the suffixes of `s`. -/
def containsB : Str → Str → Bool
  | [], p => hasPrefB p []
  | c :: r, p => hasPrefB p (c :: r) || containsB r p

/-- Python `s.find(p, start)`; `none` models `-1`. -/
def findFrom (s p : Str) (start : Nat) : Option Nat :=
  (List.range (s.length + 1)).find? (fun i => decide (start ≤ i) && occursAt s p i)

/-- Python `str.lower()` at ASCII fidelity. -/
def lowerStr (s : Str) : Str := s.map Char.toLower

/-- Digits-only test (`re.match(r"^\d+$", ln)` needs a nonempty all-digit line). -/
def allDigits (s : Str) : Bool := s ≠ [] && s.all Char.isDigit

/-- No newline character in the string (regex `.` never matches `\n`). -/
def noNlB (s : Str) : Bool := s.all (fun c => c ≠ '\n')

/- ===== looks_like_person (youtube.py:271, fetch_yc_ai_startup_school.py:252) ===== -/

/-- `name.replace("–", "-").replace("—", "-")`. -/
def normDashes (s : Str) : Str :=
  s.map (fun c => if c = '–' || c = '—' then '-' else c)

/-- Python `tok.split('-')` (keeps empty pieces). -/
def splitOnCh (ch : Char) : Str → List Str
  | [] => [[]]
  | c :: r =>
    let rest := splitOnCh ch r
    if c = ch then [] :: rest
    else
      match rest with
      | [] => [[c]]
      | h :: t => (c :: h) :: t

/-- The per-token test `all(p and p[0].isupper() for p in parts if p)`:
every nonempty hyphen-separated piece starts with an uppercase letter. -/
def tokenOk (tok : Str) : Bool :=
  (splitOnCh '-' tok).all (fun p =>
    match p with
    | [] => true
    | c :: _ => c.isUpper)

/-- `looks_like_person` from `src/src/ebook_pipeline/youtube.py` (and its
identical copy in `src/scripts/fetch_yc_ai_startup_school.py`): tokenize on
whitespace after dash normalization, require 1..6 tokens, and require at
least `max(1, tokens - 1)` tokens whose hyphen pieces all start uppercase. -/
def looks_like_person (name : Str) : Bool :=
  let tokens := pySplitWs (normDashes name)
  if 1 ≤ tokens.length && tokens.length ≤ 6 then
    decide (max 1 (tokens.length - 1) ≤ (tokens.filter tokenOk).length)
  else false

/-- Modelled from the claim wording of C2 (not from the source): the same
function but with acceptance threshold `tokenCount - 1`, i.e. a single-token
input needs 0 passing tokens.  Used only to exhibit where the claim and the
code differ. -/
def looks_like_person_claim (name : Str) : Bool :=
  let tokens := pySplitWs (normDashes name)
  if 1 ≤ tokens.length && tokens.length ≤ 6 then
    decide (tokens.length - 1 ≤ (tokens.filter tokenOk).length)
  else false

/- ===== stable descending sort (models Python list.sort(key=..., reverse=True)) ===== -/

/-- Insert `x` (an element originally preceding all of the list) into an
already descending-sorted list, keeping equal-key elements in original
order, as Python's stable `list.sort(key=..., reverse=True)` does. -/
def insertDesc {α : Type} (key : α → Nat) (x : α) : List α → List α
  | [] => [x]
  | y :: ys => if key y ≤ key x then x :: y :: ys else y :: insertDesc key x ys

/-- Stable descending sort by a `Nat` key; behaviourally identical to
Python `list.sort(key=..., reverse=True)` (any stable sort is). -/
def pySortDesc {α : Type} (key : α → Nat) : List α → List α
  | [] => []
  | x :: xs => insertDesc key x (pySortDesc key xs)

/- ===== exact time values =====
   `float(node.attrib.get("start", "0"))` etc. are modelled as exact
   rationals in unreduced-fraction form (denominator positive by the
   convention of every constructor used here); comparisons are by
   cross-multiplication, which is exact for positive denominators. -/

structure Ti where
  num : Int
  den : Int
deriving DecidableEq

/-- Exact rational addition (unreduced). -/
def Ti.add (a b : Ti) : Ti := ⟨a.num * b.den + b.num * a.den, a.den * b.den⟩

/-- Exact rational subtraction (unreduced). -/
def Ti.sub (a b : Ti) : Ti := ⟨a.num * b.den - b.num * a.den, a.den * b.den⟩

/-- `a < b` for positive-denominator fractions. -/
def Ti.blt (a b : Ti) : Bool := a.num * b.den < b.num * a.den

/-- `a ≤ b` for positive-denominator fractions. -/
def Ti.ble (a b : Ti) : Bool := a.num * b.den ≤ b.num * a.den

/-- The float literal `2.5` of the paragraph-gap test. -/
def twoPointFive : Ti := ⟨5, 2⟩

/-- The gap test `s - last_end > 2.5` shared by `xml_to_paragraphs` and the
segment loop of `fetch_transcript_with_library`. -/
def gapBig (lastEnd s : Ti) : Bool := Ti.blt twoPointFive (Ti.sub s lastEnd)

/- ===== the shared paragraph-merge loop =====
   (youtube.py:412-429 in xml_to_paragraphs and youtube.py:496-522 in
   fetch_transcript_with_library run the same accumulation loop). -/

/-- One cleaned caption line: start time, end time, nonempty cleaned text. -/
structure CLine where
  s : Ti
  e : Ti
  txt : Str
deriving DecidableEq

/-- Loop state: emitted paragraphs (`paras`), accumulation buffer (`buf`),
and the previous node's end time (`last_end`). -/
structure MSt where
  paras : List Str
  buf : List Str
  lastEnd : Ti

/-- One iteration of the merge loop: flush on a time gap `> 2.5` when the
buffer is nonempty, append the text, flush again when the joined buffer
exceeds 800 characters. -/
def xmlStep (st : MSt) (l : CLine) : MSt :=
  let ps := if gapBig st.lastEnd l.s && !st.buf.isEmpty
            then st.paras ++ [joinSp st.buf] else st.paras
  let bf := if gapBig st.lastEnd l.s && !st.buf.isEmpty then [] else st.buf
  let bf2 := bf ++ [l.txt]
  if 800 < (joinSp bf2).length then ⟨ps ++ [joinSp bf2], [], l.e⟩
  else ⟨ps, bf2, l.e⟩

/-- The merge loop over all lines, flushing the leftover buffer at the end
(`if buf: paras.append(" ".join(buf))`). -/
def xmlMergeAux (st : MSt) : List CLine → List Str
  | [] => st.paras ++ (if st.buf.isEmpty then [] else [joinSp st.buf])
  | l :: ls => xmlMergeAux (xmlStep st l) ls

/-- The `paras` list produced by `xml_to_paragraphs` for a nonempty line
list: `last_end` starts at the first line's end time (youtube.py:416). -/
def xmlMergeParas (lines : List CLine) : List Str :=
  match lines with
  | [] => []
  | l0 :: _ => xmlMergeAux ⟨[], [], l0.e⟩ lines

/-- The same loop as run by `fetch_transcript_with_library`, whose
`last_end` starts at `0.0` (youtube.py:497). -/
def libMergeParas (lines : List CLine) : List Str :=
  xmlMergeAux ⟨[], [], ⟨0, 1⟩⟩ lines

/-- The final cleanup list
`[re.sub(r"\s+", " ", p).strip() for p in paras if p.strip()]`. -/
def finalParas (paras : List Str) : List Str :=
  (paras.filter (fun p => pyStrip p ≠ [])).map pyCollapse

/-- `"\n\n".join(paras) + "\n"` after the final cleanup. -/
def finalizeParas (paras : List Str) : Str :=
  joinWith ("\n\n".data) (finalParas paras) ++ ("\n".data)

/- ===== xml_to_paragraphs (youtube.py:391-433) ===== -/

/-- A `<text start=... dur=...>` node of the timed-caption XML, as produced
by the XML parse stage: `start`/`dur` already converted from their
attribute strings (with defaults "0" and "2" applied at that boundary) and
`text` the entity-decoded inner text (`html.unescape` is part of the
parse boundary; it is the identity on the inputs considered here). -/
structure XmlNode where
  start : Ti
  dur : Ti
  text : Str
deriving DecidableEq

/-- The per-node cleanup of youtube.py:399-407: flatten newlines to spaces,
strip, drop nodes whose text becomes empty; keep `(start, start+dur, txt)`. -/
def cleanNode (n : XmlNode) : Option CLine :=
  let txt := pyStrip ((n.text).map (fun c => if c = '\n' then ' ' else c))
  if txt = [] then none else some ⟨n.start, Ti.add n.start n.dur, txt⟩

/-- The cleaned line list of `xml_to_paragraphs` before sorting. -/
def xmlCleanLines (nodes : List XmlNode) : List CLine :=
  nodes.filterMap cleanNode

/-- Stable insertion into an ascending-by-start list (the inserted element
originally precedes the list elements, so ties keep it first), modelling
Python's stable `lines.sort(key=lambda x: x[0])`. -/
def insertByStart (l : CLine) : List CLine → List CLine
  | [] => [l]
  | x :: xs => if Ti.ble l.s x.s then l :: x :: xs else x :: insertByStart l xs

/-- Stable sort by start time. -/
def sortByStart : List CLine → List CLine
  | [] => []
  | l :: ls => insertByStart l (sortByStart ls)

/-- The sorted cleaned line list actually fed to the merge loop. -/
def xmlSorted (nodes : List XmlNode) : List CLine :=
  sortByStart (xmlCleanLines nodes)

/-- `xml_to_paragraphs`.  The argument is the result of the XML parse
stage: `none` models an `ET.ParseError` (the function returns `""`), and
`some nodes` the parsed list of `<text>` nodes.  With no usable text lines
the function also returns `""` (youtube.py:409-410). -/
def xml_to_paragraphs : Option (List XmlNode) → Str
  | none => []
  | some nodes =>
    if xmlCleanLines nodes = [] then []
    else finalizeParas (xmlMergeParas (xmlSorted nodes))

/- ===== fetch_transcript_with_library, normalization part (youtube.py:495-524) ===== -/

/-- One `{text, start, duration}` segment returned by the transcript
library. -/
structure Seg where
  start : Ti
  duration : Ti
  text : Str
deriving DecidableEq

/-- The per-segment cleanup of youtube.py:509-512: newline flattening,
strip, skip empty (an empty segment updates neither buffer nor
`last_end`, which is the same as dropping it before the loop). -/
def cleanSeg (g : Seg) : Option CLine :=
  let txt := pyStrip ((g.text).map (fun c => if c = '\n' then ' ' else c))
  if txt = [] then none else some ⟨g.start, Ti.add g.start g.duration, txt⟩

/-- The cleaned segment-line list (processed in given order: this path does
not sort). -/
def libCleanLines (segs : List Seg) : List CLine :=
  segs.filterMap cleanSeg

/-- The normalized transcript text built by `fetch_transcript_with_library`
from a fetched segment list. -/
def lib_transcript_text (segs : List Seg) : Str :=
  finalizeParas (libMergeParas (libCleanLines segs))

/- ===== parse_vtt_to_paragraphs (subtitles.py:81-133, identical logic in
   scripts/download_subs.py:73-141) ===== -/

/-- `re.match(r"^\d{2}:\d{2}:\d{2}\.\d{3} --> ", ln)`: a cue time-range
line. -/
def isTsArrow : Str → Bool
  | d1 :: d2 :: c1 :: d3 :: d4 :: c2 :: d5 :: d6 :: dot :: d7 :: d8 :: d9 :: sp1 :: m1 :: m2 :: gt :: sp2 :: _ =>
    d1.isDigit && d2.isDigit && c1 = ':' && d3.isDigit && d4.isDigit &&
    c2 = ':' && d5.isDigit && d6.isDigit && dot = '.' && d7.isDigit &&
    d8.isDigit && d9.isDigit && sp1 = ' ' && m1 = '-' && m2 = '-' &&
    gt = '>' && sp2 = ' '
  | _ => false

/-- `re.match(r"^(Kind|Language|Style|Region):", ln, re.IGNORECASE)`. -/
def isMetaLine (ln : Str) : Bool :=
  let lo := lowerStr ln
  hasPrefB ("kind:".data) lo || hasPrefB ("language:".data) lo ||
  hasPrefB ("style:".data) lo || hasPrefB ("region:".data) lo

/-- `re.search(r"<\d{2}:\d{2}:\d{2}\.\d{3}>", ln)` at one offset. -/
def isInlineTimeAt : Str → Bool
  | lt :: d1 :: d2 :: c1 :: d3 :: d4 :: c2 :: d5 :: d6 :: dot :: d7 :: d8 :: d9 :: gt :: _ =>
    lt = '<' && d1.isDigit && d2.isDigit && c1 = ':' && d3.isDigit &&
    d4.isDigit && c2 = ':' && d5.isDigit && d6.isDigit && dot = '.' &&
    d7.isDigit && d8.isDigit && d9.isDigit && gt = '>'
  | _ => false

/-- `re.search` over the whole line for an inline `<hh:mm:ss.mmm>` tag, as
a left-to-right scan over suffixes. -/
def hasInlineTime : Str → Bool
  | [] => isInlineTimeAt []
  | c :: r => isInlineTimeAt (c :: r) || hasInlineTime r

/-- `re.sub(r"<[^>]+>", "", ln)` via a fuel-bounded left-to-right scan:
at each `<`, if a `>` follows with at least one non-`>` character in
between, the whole `<...>` span is removed; otherwise the `<` is kept. -/
def stripTagsF : Nat → Str → Str
  | 0, s => s
  | _ + 1, [] => []
  | fuel + 1, c :: r =>
    if c = '<' then
      let mid := r.takeWhile (fun d => d ≠ '>')
      let rest := r.drop mid.length
      match rest with
      | '>' :: tail => if mid = [] then c :: stripTagsF fuel r else stripTagsF fuel tail
      | _ => c :: stripTagsF fuel r
    else c :: stripTagsF fuel r

def stripTags (ln : Str) : Str := stripTagsF (ln.length + 1) ln

/-- One noise word of `\[(music|applause|laughter|inaudible)[^\]]*\]`
matching at the start of `r` (case-insensitively); returns the remainder
after the closing `]` when the whole bracket group matches. -/
def noiseTail (r : Str) : Option Str :=
  let lo := lowerStr r
  let word :=
    if hasPrefB ("music".data) lo then some 5
    else if hasPrefB ("applause".data) lo then some 8
    else if hasPrefB ("laughter".data) lo then some 8
    else if hasPrefB ("inaudible".data) lo then some 9
    else none
  match word with
  | none => none
  | some n =>
    let after := r.drop n
    let mid := after.takeWhile (fun d => d ≠ ']')
    match after.drop mid.length with
    | ']' :: tail => some tail
    | _ => none

/-- `re.sub(r"\[(music|applause|laughter|inaudible)[^\]]*\]", "", clean,
flags=re.IGNORECASE)` via a fuel-bounded left-to-right scan. -/
def stripNoiseF : Nat → Str → Str
  | 0, s => s
  | _ + 1, [] => []
  | fuel + 1, c :: r =>
    if c = '[' then
      match noiseTail r with
      | some tail => stripNoiseF fuel tail
      | none => c :: stripNoiseF fuel r
    else c :: stripNoiseF fuel r

def stripNoise (ln : Str) : Str := stripNoiseF (ln.length + 1) ln

/-- The first loop of `parse_vtt_to_paragraphs` (subtitles.py:84-103):
filter header/cue/metadata/styling lines, strip tags and bracketed noise,
and suppress exact consecutive duplicates of the trimmed text. -/
def vttCleanGo (acc : List Str) : List Str → List Str
  | [] => acc
  | ln :: rest =>
    if ln = [] then vttCleanGo (acc ++ [[]]) rest
    else if hasPrefB ("WEBVTT".data) ln || hasPrefB ("NOTE".data) ln then vttCleanGo acc rest
    else if isTsArrow ln then vttCleanGo acc rest
    else if allDigits ln then vttCleanGo acc rest
    else if isMetaLine ln then vttCleanGo acc rest
    else if containsB ln ("<c>".data) || hasInlineTime ln then vttCleanGo acc rest
    else
      let trimmed := pyStrip (stripNoise (stripTags ln))
      if acc ≠ [] && trimmed ≠ [] && acc.getLast? = some trimmed then vttCleanGo acc rest
      else vttCleanGo (acc ++ [trimmed]) rest

def vttCleanLines (lines : List Str) : List Str := vttCleanGo [] lines

/-- State of the second loop of `parse_vtt_to_paragraphs`: paragraphs,
buffer, and the `seen_in_para` set (kept as a duplicate-free list). -/
structure VSt where
  paras : List Str
  buf : List Str
  seen : List Str

/-- The append path of the second loop (subtitles.py:123-129): append the
fragment, record it in `seen_in_para`, flush when the joined buffer exceeds
800 characters (clearing the seen set). -/
def vttAppend (st : VSt) (frag : Str) : VSt :=
  if st.seen.contains frag then st
  else
    let bf := st.buf ++ [frag]
    if 800 < (joinSp bf).length then ⟨st.paras ++ [joinSp bf], [], []⟩
    else ⟨st.paras, bf, st.seen ++ [frag]⟩

/-- One iteration of the second loop (subtitles.py:108-129): skip blank
fragments, drop an exact duplicate of the buffer tail, replace the buffer
tail by a fragment extending it by at least 3 characters, drop a fragment
that is a by-at-least-3 shorter leading segment of the buffer tail, and
otherwise take the append path. -/
def vttStep (st : VSt) (ln : Str) : VSt :=
  let frag := pyStrip ln
  if frag = [] then st
  else
    match st.buf.getLast? with
    | some last =>
      if last = frag then st
      else if hasPrefB last frag && last.length + 2 < frag.length then
        ⟨st.paras, st.buf.dropLast ++ [frag], st.seen⟩
      else if hasPrefB frag last && frag.length + 2 < last.length then st
      else vttAppend st frag
    | none => vttAppend st frag

/-- The second loop over all cleaned lines, flushing the leftover buffer. -/
def vttMergeAux (st : VSt) : List Str → List Str
  | [] => st.paras ++ (if st.buf.isEmpty then [] else [joinSp st.buf])
  | ln :: ls => vttMergeAux (vttStep st ln) ls

/-- The `paras` list of `parse_vtt_to_paragraphs`. -/
def vttMergeParas (tls : List Str) : List Str := vttMergeAux ⟨[], [], []⟩ tls

/-- `parse_vtt_to_paragraphs`, taking the file's line list (each line
already stripped of its trailing newline, as the source does on read). -/
def parse_vtt_to_paragraphs (lines : List Str) : Str :=
  finalizeParas (vttMergeParas (vttCleanLines lines))

/-- The fragments that can enter the second loop's buffer: the stripped
nonempty cleaned lines. -/
def vttFrags (lines : List Str) : List Str :=
  (vttCleanLines lines).filterMap
    (fun l => if pyStrip l = [] then none else some (pyStrip l))

/- ===== clean_title_for_series and split_title_and_speaker
   (youtube.py:263-332) =====
   The regular expressions of the source are modelled by explicit scans
   with the same matching semantics (leftmost match, `.` never matching a
   newline, `$` at the end or before a final newline, greedy/lazy
   quantifiers resolved as the `re` engine does on these patterns). -/

/-- Length of the leading run satisfying `p`. -/
def countWhile (p : Char → Bool) : Str → Nat
  | [] => 0
  | c :: r => if p c then countWhile p r + 1 else 0

/-- `(.+)$` matched against the whole remainder `r`: the group is `r`
itself when `r` is nonempty and newline-free, or `r` minus a single final
newline when that prefix is nonempty and newline-free. -/
def dollarTail (r : Str) : Option Str :=
  if r = [] then none
  else if noNlB r = true then some r
  else if r.getLast? = some '\n' ∧ noNlB r.dropLast = true ∧ r.dropLast ≠ [] then some r.dropLast
  else none

/-- Greedy `\s+(.+)$` give-back loop: consume `j` whitespace characters,
largest first. -/
def wsGiveP (r : Str) : Nat → Option Str
  | 0 => none
  | j + 1 =>
    match dollarTail (r.drop (j + 1)) with
    | some g => some g
    | none => wsGiveP r j

/-- `\s+(.+)$` against `r`. -/
def wsPlusDollar (r : Str) : Option Str :=
  let w := countWhile isSpace r
  if w = 0 then none else wsGiveP r w

/-- Greedy `\s*(.+)$` give-back loop (down to consuming no whitespace). -/
def wsGiveS (r : Str) : Nat → Option Str
  | 0 => dollarTail r
  | j + 1 =>
    match dollarTail (r.drop (j + 1)) with
    | some g => some g
    | none => wsGiveS r j

/-- `\s*(.+)$` against `r`. -/
def wsStarDollar (r : Str) : Option Str :=
  wsGiveS r (countWhile isSpace r)

/-- `\s+word\s+(.+)$` (case-insensitive on `word`) matching at the start of
`r`: a nonempty whitespace run, the word, then `\s+(.+)$`. -/
def sepRest (word : Str) (r : Str) : Option Str :=
  let w := countWhile isSpace r
  if w = 0 then none
  else if hasPrefB word (lowerStr (r.drop w)) then wsPlusDollar (r.drop (w + word.length))
  else none

/-- The maximal newline-free run of `t` ending just before offset `k`:
the lazily-smallest group-1 of `(.+?)` combined with the leftmost match
start. -/
def lastRun (t : Str) (k : Nat) : Str :=
  ((t.take k).reverse.takeWhile (fun c => c ≠ '\n')).reverse

/-- Scan of `re.search(r"(.+?)\s+word\s+(.+)$", t, re.IGNORECASE)`: find
the smallest split offset `k ≥ 1` with a nonempty newline-free group-1
ending at `k` and the separator-plus-tail matching at `k`. -/
def fkScan (word : Str) (t : Str) : Nat → Nat → Option (Str × Str)
  | _, 0 => none
  | k, fuel + 1 =>
    if t.length < k then none
    else
      let g1 := lastRun t k
      if g1 ≠ [] then
        match sepRest word (t.drop k) with
        | some g2 => some (g1, g2)
        | none => fkScan word t (k + 1) fuel
      else fkScan word t (k + 1) fuel

def findWordSplit (word : Str) (t : Str) : Option (Str × Str) :=
  fkScan word t 1 (t.length + 1)

/-- `re.search(r"^([^C]+)C\s*(.+)$", t)` for a class `C` of separator
characters: group 1 runs to the first separator character (it must exist
and not be the first character), then `\s*(.+)$`. -/
def sepClassSplit (isSep : Char → Bool) (t : Str) : Option (Str × Str) :=
  let g1 := t.takeWhile (fun c => !(isSep c))
  if g1 = [] ∨ g1.length = t.length then none
  else
    match wsStarDollar (t.drop (g1.length + 1)) with
    | some g2 => some (g1, g2)
    | none => none

/-- Index of the last occurrence of `ch` (callers guarantee presence). -/
def lastIdxOf (ch : Char) (t : Str) : Nat :=
  t.length - 1 - (t.reverse.takeWhile (fun c => c ≠ ch)).length

/-- The series phrase tested by both cleanup substitutions. -/
def seriesPhrase : Str := "ai startup school".data

/-- `.*$` can complete from here: no newline, or newline only as the final
character. -/
def seriesTailOk (m : Str) : Bool :=
  noNlB m || (decide (m.getLast? = some '\n') && noNlB m.dropLast)

/-- A viable separator position for
`re.sub(r"\s*[|\-]\s*ai startup school.*$", "", t, re.IGNORECASE)`:
`t[j]` is `|` or `-` and skipping whitespace leads to the phrase with a
`.*$`-acceptable tail. -/
def sub1ViableAt (t : Str) (j : Nat) : Bool :=
  match t.drop j with
  | [] => false
  | c :: r =>
    (c = '|' || c = '-') &&
    (let w := countWhile isSpace r
     hasPrefB seriesPhrase (lowerStr (r.drop w)) && seriesTailOk (r.drop (w + 17)))

/-- Smallest viable separator position, by left-to-right scan. -/
def sub1FindGo (t : Str) : Nat → Nat → Option Nat
  | _, 0 => none
  | j, fuel + 1 =>
    if t.length ≤ j then none
    else if sub1ViableAt t j then some j
    else sub1FindGo t (j + 1) fuel

/-- Length of the whitespace run immediately before offset `j` (the `\s*`
prefix of the match, which extends the match start to the left). -/
def wsRunBefore (t : Str) (j : Nat) : Nat :=
  countWhile isSpace ((t.take j).reverse)

/-- First substitution of `clean_title_for_series` (youtube.py:266): remove
a `| ai startup school ...` or `- ai startup school ...` tail; a final
newline survives, since `.*` cannot consume it. -/
def sub1Apply (t : Str) : Str :=
  match sub1FindGo t 0 (t.length + 1) with
  | none => t
  | some j =>
    let rest := t.drop (j + 1)
    let w := countWhile isSpace rest
    let tail2 := rest.drop (w + 17)
    t.take (j - wsRunBefore t j) ++ (if noNlB tail2 then [] else ['\n'])

/-- `.*\)$` can complete: a `)` as the last character, or as the
second-to-last followed by a final newline, with only newline-free text
before it. -/
def closeParenOk (rest : Str) : Bool :=
  (decide (rest.getLast? = some ')') && noNlB rest.dropLast) ||
  (decide (rest.getLast? = some '\n') && decide (rest.dropLast.getLast? = some ')') &&
    noNlB rest.dropLast.dropLast)

/-- A viable `(` position for
`re.sub(r"\s*\(ai startup school.*\)$", "", t, re.IGNORECASE)`. -/
def sub2ViableAt (t : Str) (j : Nat) : Bool :=
  match t.drop j with
  | [] => false
  | c :: r =>
    c = '(' && hasPrefB seriesPhrase (lowerStr r) && closeParenOk (r.drop 17)

def sub2FindGo (t : Str) : Nat → Nat → Option Nat
  | _, 0 => none
  | j, fuel + 1 =>
    if t.length ≤ j then none
    else if sub2ViableAt t j then some j
    else sub2FindGo t (j + 1) fuel

/-- Second substitution of `clean_title_for_series` (youtube.py:267). -/
def sub2Apply (t : Str) : Str :=
  match sub2FindGo t 0 (t.length + 1) with
  | none => t
  | some j =>
    let rest := (t.drop (j + 1)).drop 17
    t.take (j - wsRunBefore t j) ++ (if noNlB rest then [] else ['\n'])

/-- `clean_title_for_series` (youtube.py:263-268). -/
def clean_title_for_series (title : Str) : Str :=
  pyStrip (sub2Apply (sub1Apply title))

/-- Pattern 1, `"(.+?)\s+by\s+(.+)$"`, with the person guard on the
speaker side (youtube.py:290-294). -/
def tryBy (t : Str) : Option (Str × Str) :=
  match findWordSplit ("by".data) t with
  | some (g1, g2) =>
    if looks_like_person (pyStrip g2) then some (pyStrip g1, pyStrip g2) else none
  | none => none

/-- Pattern 1.5, `"(.+?)\s+with\s+(.+)$"` (youtube.py:297-301). -/
def tryWith (t : Str) : Option (Str × Str) :=
  match findWordSplit ("with".data) t with
  | some (g1, g2) =>
    if looks_like_person (pyStrip g2) then some (pyStrip g1, pyStrip g2) else none
  | none => none

/-- Pattern 2, `"^([^:]+):\s*(.+)$"`, guard on the left side; result is
(talk, speaker) = (right, left) (youtube.py:304-308). -/
def tryColon (t : Str) : Option (Str × Str) :=
  match sepClassSplit (fun c => c = ':') t with
  | some (l, r) =>
    if looks_like_person (pyStrip l) then some (pyStrip r, pyStrip l) else none
  | none => none

/-- Pattern 3, `"^([^\-|–—]+)[\-|–—]\s*(.+)$"` (youtube.py:311-315). -/
def tryDash (t : Str) : Option (Str × Str) :=
  match sepClassSplit (fun c => c = '-' || c = '|' || c = '–' || c = '—') t with
  | some (l, r) =>
    if looks_like_person (pyStrip l) then some (pyStrip r, pyStrip l) else none
  | none => none

/-- One window of pattern 4: the last `take` whitespace tokens after the
last `|` (youtube.py:325-329). -/
def tryTake (left : Str) (tokens : List Str) (take : Nat) : Option (Str × Str) :=
  if take ≤ tokens.length then
    let cand := joinSp (tokens.drop (tokens.length - take))
    if looks_like_person cand then some (pyStrip left, cand) else none
  else none

/-- Pattern 4: `t.rsplit('|', 1)`, then candidate name windows of the last
4, 3, 2 tokens of the right part (youtube.py:318-329). -/
def tryPipe (t : Str) : Option (Str × Str) :=
  if containsB t ("|".data) then
    let i := lastIdxOf '|' t
    let left := t.take i
    let tokens := pySplitWs (pyStrip (t.drop (i + 1)))
    match tryTake left tokens 4 with
    | some p => some p
    | none =>
      match tryTake left tokens 3 with
      | some p => some p
      | none => tryTake left tokens 2
  else none

/-- `split_title_and_speaker` (youtube.py:285-332): series cleanup, then
the pattern cascade, each pattern accepted only when its speaker side
passes `looks_like_person`; otherwise the cleaned title with no speaker. -/
def split_title_and_speaker (raw : Str) : Str × Option Str :=
  let t := clean_title_for_series raw
  match tryBy t with
  | some (a, b) => (a, some b)
  | none =>
    match tryWith t with
    | some (a, b) => (a, some b)
    | none =>
      match tryColon t with
      | some (a, b) => (a, some b)
      | none =>
        match tryDash t with
        | some (a, b) => (a, some b)
        | none =>
          match tryPipe t with
          | some (a, b) => (a, some b)
          | none => (t, none)

/- ===== get_yt_initial_player_response (youtube.py:96-118, identical copy
   in scripts/fetch_yc_ai_startup_school.py:78-100) ===== -/

/-- JSON documents, as produced by `json.loads`; numbers are kept as their
raw token (their value is never consumed by the modelled code). -/
inductive Jsn where
  | jnull : Jsn
  | jbool : Bool → Jsn
  | jnum : Str → Jsn
  | jstr : Str → Jsn
  | jarr : List Jsn → Jsn
  | jobj : List (Str × Jsn) → Jsn

/-- JSON inter-token whitespace. -/
def jWsDrop (s : Str) : Str :=
  s.dropWhile (fun c => c = ' ' || c = '\t' || c = '\n' || c = '\r')

/-- Hexadecimal digit value. -/
def hexVal (c : Char) : Option Nat :=
  if c.isDigit then some (c.toNat - 48)
  else
    let l := c.toLower
    if 'a' ≤ l ∧ l ≤ 'f' then some (l.toNat - 97 + 10) else none

/-- JSON string body after the opening quote, with escapes; strict mode
rejects raw control characters; `\uXXXX` is decoded per code unit
(surrogate-pair recombination is not modelled, it is value-irrelevant
here). -/
def parseStrBody : Nat → Str → Option (Str × Str)
  | 0, _ => none
  | _ + 1, [] => none
  | fuel + 1, c :: r =>
    if c = '"' then some ([], r)
    else if c = '\\' then
      match r with
      | [] => none
      | e :: r2 =>
        if e = 'u' then
          match r2 with
          | h1 :: h2 :: h3 :: h4 :: r3 =>
            match hexVal h1, hexVal h2, hexVal h3, hexVal h4 with
            | some a, some b, some cc, some d =>
              match parseStrBody fuel r3 with
              | some (s, rem) => some (Char.ofNat (((a * 16 + b) * 16 + cc) * 16 + d) :: s, rem)
              | none => none
            | _, _, _, _ => none
          | _ => none
        else
          let ec : Option Char :=
            if e = '"' then some '"'
            else if e = '\\' then some '\\'
            else if e = '/' then some '/'
            else if e = 'b' then some '\x08'
            else if e = 'f' then some '\x0c'
            else if e = 'n' then some '\n'
            else if e = 'r' then some '\r'
            else if e = 't' then some '\t'
            else none
          match ec with
          | some d =>
            match parseStrBody fuel r2 with
            | some (s, rem) => some (d :: s, rem)
            | none => none
          | none => none
    else if c.toNat < 32 then none
    else
      match parseStrBody fuel r with
      | some (s, rem) => some (c :: s, rem)
      | none => none

/-- Leading digit run. -/
def digitsRun (s : Str) : Str × Str :=
  (s.takeWhile Char.isDigit, s.dropWhile Char.isDigit)

/-- The optional fraction part `(\.\d+)?`. -/
def fracPart (s : Str) : Str × Str :=
  match s with
  | '.' :: rr =>
    let (ds, r') := digitsRun rr
    if ds = [] then ([], s) else ('.' :: ds, r')
  | _ => ([], s)

/-- The optional exponent part `([eE][-+]?\d+)?`. -/
def expPart (s : Str) : Str × Str :=
  match s with
  | e :: rest =>
    if e = 'e' ∨ e = 'E' then
      let (sgn, rest2) :=
        match rest with
        | c :: rr => if c = '+' ∨ c = '-' then ([c], rr) else (([] : Str), rest)
        | [] => (([] : Str), rest)
      let (ds, r') := digitsRun rest2
      if ds = [] then ([], s) else (e :: (sgn ++ ds), r')
    else ([], s)
  | [] => ([], s)

/-- A JSON number token per `json`'s NUMBER_RE, plus the `NaN`, `Infinity`
and `-Infinity` constants that `json.loads` accepts by default.  Returns
the raw token and the remainder. -/
def parseNum (s : Str) : Option (Str × Str) :=
  if hasPrefB ("NaN".data) s then some (("NaN".data), s.drop 3)
  else if hasPrefB ("Infinity".data) s then some (("Infinity".data), s.drop 8)
  else if hasPrefB ("-Infinity".data) s then some (("-Infinity".data), s.drop 9)
  else
    let (neg, s1) :=
      match s with
      | '-' :: r => ((['-'] : Str), r)
      | _ => (([] : Str), s)
    let (ip, r1) := digitsRun s1
    if ip = [] then none
    else if 1 < ip.length ∧ ip.head? = some '0' then none
    else
      let (fp, r2) := fracPart r1
      let (ep, r3) := expPart r2
      some (neg ++ ip ++ fp ++ ep, r3)

mutual

/-- `json.loads` value parser (fuel-bounded recursive descent over the
JSON grammar). -/
def parseVal : Nat → Str → Option (Jsn × Str)
  | 0, _ => none
  | fuel + 1, s0 =>
    let s := jWsDrop s0
    match s with
    | [] => none
    | '{' :: r =>
      let r1 := jWsDrop r
      match r1 with
      | '}' :: r2 => some (Jsn.jobj [], r2)
      | _ =>
        match parseMembers fuel r1 [] with
        | some (kvs, rest) => some (Jsn.jobj kvs, rest)
        | none => none
    | '[' :: r =>
      let r1 := jWsDrop r
      match r1 with
      | ']' :: r2 => some (Jsn.jarr [], r2)
      | _ =>
        match parseItems fuel r1 [] with
        | some (vs, rest) => some (Jsn.jarr vs, rest)
        | none => none
    | '"' :: r =>
      match parseStrBody (r.length + 1) r with
      | some (str, rem) => some (Jsn.jstr str, rem)
      | none => none
    | _ =>
      if hasPrefB ("true".data) s then some (Jsn.jbool true, s.drop 4)
      else if hasPrefB ("false".data) s then some (Jsn.jbool false, s.drop 5)
      else if hasPrefB ("null".data) s then some (Jsn.jnull, s.drop 4)
      else
        match parseNum s with
        | some (raw, rest) => some (Jsn.jnum raw, rest)
        | none => none

/-- Object members after the opening brace (first key expected). -/
def parseMembers : Nat → Str → List (Str × Jsn) → Option (List (Str × Jsn) × Str)
  | 0, _, _ => none
  | fuel + 1, s, acc =>
    match s with
    | '"' :: r =>
      match parseStrBody (r.length + 1) r with
      | none => none
      | some (key, r1) =>
        match jWsDrop r1 with
        | ':' :: r3 =>
          match parseVal fuel r3 with
          | none => none
          | some (v, r4) =>
            match jWsDrop r4 with
            | ',' :: r6 => parseMembers fuel (jWsDrop r6) (acc ++ [(key, v)])
            | '}' :: r6 => some (acc ++ [(key, v)], r6)
            | _ => none
        | _ => none
    | _ => none

/-- Array items after the opening bracket (first item expected). -/
def parseItems : Nat → Str → List Jsn → Option (List Jsn × Str)
  | 0, _, _ => none
  | fuel + 1, s, acc =>
    match parseVal fuel s with
    | none => none
    | some (v, r1) =>
      match jWsDrop r1 with
      | ',' :: r3 => parseItems fuel r3 (acc ++ [v])
      | ']' :: r3 => some (acc ++ [v], r3)
      | _ => none

end

/-- `json.loads`: parse one value and require only whitespace after it. -/
def jsonParse (s : Str) : Option Jsn :=
  match parseVal (s.length + 1) s with
  | some (v, rest) => if jWsDrop rest = [] then some v else none
  | none => none

/-- The balanced-brace scan of `_extract_braced_json` (youtube.py:59-76):
find the anchor, find the first `{` after it, and return the substring up
to the position where the brace depth returns to zero. -/
def braceTake : Str → Int → Str → Option Str
  | [], _, _ => none
  | c :: r, depth, acc =>
    if c = '{' then braceTake r (depth + 1) (acc ++ [c])
    else if c = '}' then
      if depth - 1 = 0 then some (acc ++ [c]) else braceTake r (depth - 1) (acc ++ [c])
    else braceTake r depth (acc ++ [c])

def extract_braced_json (source anchor : Str) : Option Str :=
  match findFrom source anchor 0 with
  | none => none
  | some idx =>
    match findFrom source ['{'] idx with
    | none => none
    | some bs => braceTake (source.drop bs) 0 []

/-- Python `key in obj` on a parsed JSON object. -/
def hasKeyJ (kvs : List (Str × Jsn)) (k : Str) : Bool :=
  kvs.any (fun kv => decide (kv.1 = k))

/-- One candidate of the occurrence loop: extract braced JSON at this
anchor occurrence, parse it, and keep it only when it is an object with a
`videoDetails` or `captions` key (youtube.py:109-116). -/
def tryPlayerJson (s anchor : Str) : Option Jsn :=
  match extract_braced_json s anchor with
  | none => none
  | some js =>
    match jsonParse js with
    | some (Jsn.jobj kvs) =>
      if hasKeyJ kvs ("videoDetails".data) || hasKeyJ kvs ("captions".data)
      then some (Jsn.jobj kvs) else none
    | _ => none

/-- The `while True` occurrence loop for one pattern (youtube.py:104-117):
advance `start` past each occurrence until a candidate qualifies. -/
def scanPat (html p : Str) : Nat → Nat → Option Jsn
  | 0, _ => none
  | fuel + 1, start =>
    match findFrom html p start with
    | none => none
    | some idx =>
      match tryPlayerJson (html.drop idx) p with
      | some obj => some obj
      | none => scanPat html p fuel (idx + p.length)

def prPat1 : Str := "ytInitialPlayerResponse = ".data

/-- The second anchor literally extends the first by a `var ` prefix. -/
def prPat2 : Str := ("var ".data) ++ prPat1

/-- The third anchor is searched with `str.find`, so the `\s*` written in
the (non-raw) Python string stays a literal backslash-s-star. -/
def prPat3 : Str := "\"ytInitialPlayerResponse\"\\s*:\\s*".data

/-- `get_yt_initial_player_response` (youtube.py:96-118). -/
def get_yt_initial_player_response (html : Str) : Option Jsn :=
  match scanPat html prPat1 (html.length + 1) 0 with
  | some o => some o
  | none =>
    match scanPat html prPat2 (html.length + 1) 0 with
    | some o => some o
    | none => scanPat html prPat3 (html.length + 1) 0

/- ===== caption track scoring and selection =====
   (youtube.py:352-388 fetch_transcript_from_player_response,
    subtitles.py:180-217 fetch_transcript_via_cookies) -/

/-- A caption track as read from the player response.  `name` stands for the
string the "English" membership test runs against: `text_from_runs(t.name)`
in `track_score`, `str(name)` in the cookies-path `score`.  Manual tracks
carry no `kind` key (`none`); auto-generated ones carry `some "asr"`. -/
structure CapTrack where
  languageCode : Str
  name : Str
  kind : Option Str
  baseUrl : Option Str
deriving DecidableEq

/-- `track_score` from `fetch_transcript_from_player_response`
(youtube.py:367-374): English language +3, name containing "English" +2,
auto-generated "asr" +1. -/
def track_score (t : CapTrack) : Nat :=
  (if hasPrefB ("en".data) t.languageCode then 3 else 0) +
  (if containsB t.name ("English".data) then 2 else 0) +
  (if t.kind = some ("asr".data) then 1 else 0)

/-- `score` from `fetch_transcript_via_cookies` (subtitles.py:195-205):
same shape but the "English" bonus is +1. -/
def cookies_track_score (t : CapTrack) : Nat :=
  (if hasPrefB ("en".data) t.languageCode then 3 else 0) +
  (if containsB t.name ("English".data) then 1 else 0) +
  (if t.kind = some ("asr".data) then 1 else 0)

/-- `tracks.sort(key=track_score, reverse=True); tracks[0]`. -/
def pick_track (tracks : List CapTrack) : Option CapTrack :=
  (pySortDesc track_score tracks).head?

/-- `tracks.sort(key=score, reverse=True); tracks[0]` on the cookies path. -/
def pick_track_cookies (tracks : List CapTrack) : Option CapTrack :=
  (pySortDesc cookies_track_score tracks).head?

/-- The single URL the player-response path fetches: the selected track's
`baseUrl`, with `fmt=srv1` appended when no `fmt=` parameter is present
(youtube.py:378-386). -/
def chosen_caption_url (tracks : List CapTrack) : Option Str :=
  match pick_track tracks with
  | none => none
  | some t =>
    match t.baseUrl with
    | none => none
    | some u =>
      if containsB u ("fmt=".data) then some u
      else some (u ++ (if containsB u ("?".data) then "&fmt=srv1".data else "?fmt=srv1".data))

/- ===== playlist candidate scoring (youtube.py:157-229) ===== -/

/-- `_score_title_for_series`: additive case-insensitive substring weights. -/
def score_title_for_series (title : Str) : Nat :=
  let t := lowerStr title
  (if containsB t ("ai".data) then 2 else 0) +
  (if containsB t ("startup".data) then 2 else 0) +
  (if containsB t ("school".data) then 2 else 0) +
  (if containsB t ("yc".data) || containsB t ("y combinator".data) then 1 else 0) +
  (if containsB t ("ai startup school".data) then 5 else 0)

/-- The selection step shared by all three strategies of `find_playlist_id`:
`candidates.sort(key=lambda x: _score_title_for_series(x[1]), reverse=True);
return candidates[0][0]` on a (playlistId, title) candidate list. -/
def pick_playlist (cands : List (Str × Str)) : Option Str :=
  ((pySortDesc (fun c => score_title_for_series c.2) cands).head?).map Prod.fst

/- ===== output-invariant predicates ===== -/

/-- A clean paragraph: nonempty, every whitespace character is a plain
space, no two adjacent whitespace characters, and no leading or trailing
whitespace (the normalizers' "internal whitespace collapsed to single
spaces" output shape). -/
def IsCleanPara (p : Str) : Prop :=
  p ≠ [] ∧
  (∀ c ∈ p, isSpace c = false ∨ c = ' ') ∧
  List.Chain' (fun a b => ¬(isSpace a = true ∧ isSpace b = true)) p ∧
  (∀ c, p.head? = some c → isSpace c = false) ∧
  (∀ c, p.getLast? = some c → isSpace c = false)

/-- The normalized-transcript output shape: some list of clean paragraphs,
joined by a blank line, with a trailing newline. -/
def TranscriptInvariant (out : Str) : Prop :=
  ∃ ps : List Str, (∀ p ∈ ps, IsCleanPara p) ∧
    out = joinWith ("\n\n".data) ps ++ ("\n".data)

/-- Consecutive-node conditions of C6 along a cleaned, sorted line list:
each node starts no earlier than its predecessor's end (non-overlap) and
within 2.5 seconds of it (no paragraph-break gap). -/
def ChainTight (le : Ti) : List CLine → Prop
  | [] => True
  | l :: ls => Ti.ble le l.s = true ∧ gapBig le l.s = false ∧ ChainTight l.e ls

theorem insertDesc_ne_nil {α : Type} (key : α → Nat) (x : α) (l : List α) :
    insertDesc key x l ≠ [] := by
  cases l with
  | nil => simp [insertDesc]
  | cons y ys =>
    by_cases h : key y ≤ key x <;> simp [insertDesc, h]

/-- The head of the stable descending sort is the first-listed element of
maximal key: it occurs in the list, every key is at most its key, and every
element listed before it has a strictly smaller key. -/
theorem pySortDesc_head_firstMax {α : Type} (key : α → Nat) :
    ∀ (l : List α) (x : α) (rest : List α),
      pySortDesc key l = x :: rest →
      ∃ u v, l = u ++ x :: v ∧ (∀ a ∈ u, key a < key x) ∧ (∀ a ∈ l, key a ≤ key x) := by
  intro l
  induction l with
  | nil => intro x rest h; simp [pySortDesc] at h
  | cons a as ih =>
    intro x rest h
    simp only [pySortDesc] at h
    cases hs : pySortDesc key as with
    | nil =>
      rw [hs] at h
      simp [insertDesc] at h
      have hasnil : as = [] := by
        cases as with
        | nil => rfl
        | cons b bs => exact absurd hs (insertDesc_ne_nil key b (pySortDesc key bs))
      refine ⟨[], as, by simp [h.1], by simp, ?_⟩
      intro e he
      rw [hasnil] at he
      simp at he
      simp [he, h.1]
    | cons b bs =>
      rw [hs] at h
      obtain ⟨u', v', hdec, hu', hall'⟩ := ih b bs hs
      by_cases hk : key b ≤ key a
      · simp only [insertDesc, if_pos hk] at h
        have hxa : x = a := by injection h with h1 h2; exact h1.symm
        refine ⟨[], as, by simp [hxa], by simp, ?_⟩
        intro e he
        simp at he
        rcases he with he | he
        · simp [he, hxa]
        · exact le_trans (hall' e (hdec ▸ he)) (hxa ▸ hk)
      · simp only [insertDesc, if_neg hk] at h
        have hxb : x = b := by injection h with h1 h2; exact h1.symm
        have hab : key a < key b := Nat.lt_of_not_le hk
        refine ⟨a :: u', v', by simp [hdec, hxb], ?_, ?_⟩
        · intro e he
          simp at he
          rcases he with he | he
          · rw [he, hxb]; exact hab
          · exact hxb ▸ hu' e he
        · intro e he
          simp at he
          rcases he with he | he
          · exact le_of_lt (hxb ▸ he ▸ hab)
          · exact hxb ▸ hall' e he

/-- With all keys equal, the stable descending sort is the identity
(ties keep discovery order). -/
theorem pySortDesc_const {α : Type} (key : α → Nat) (n : Nat) :
    ∀ l : List α, (∀ a ∈ l, key a = n) → pySortDesc key l = l := by
  intro l
  induction l with
  | nil => intro _; rfl
  | cons a as ih =>
    intro h
    have ha : key a = n := h a (by simp)
    have htail : pySortDesc key as = as := ih (fun b hb => h b (by simp [hb]))
    simp only [pySortDesc, htail]
    cases as with
    | nil => rfl
    | cons b bs =>
      have hb : key b = n := h b (by simp)
      simp [insertDesc, hb, ha]

/-- C1 counterexample: two caption tracks identical except for `kind`; the
auto-generated "asr" track scores strictly higher than the manual one under
both call sites' scoring functions, contradicting the claim that the manual
track receives a strictly higher score. -/
theorem c1_track_kind_counterexample :
    track_score ⟨("en".data), ("English".data), none, some ("u".data)⟩ <
      track_score ⟨("en".data), ("English".data), some ("asr".data), some ("u".data)⟩ ∧
    cookies_track_score ⟨("en".data), ("English".data), none, some ("u".data)⟩ <
      cookies_track_score ⟨("en".data), ("English".data), some ("asr".data), some ("u".data)⟩ := by
  decide

/-- C1 (amended): in both caption-track scoring functions an "asr" track
scores exactly one point higher than the otherwise-identical manual track
(the source awards `+1` for `kind == 'asr'`), and the selected track —
whose `baseUrl` alone is fetched — is always a member of maximal score. -/
theorem c1_track_scoring_amended :
    (∀ lang nm url, track_score ⟨lang, nm, some ("asr".data), url⟩ =
        track_score ⟨lang, nm, none, url⟩ + 1) ∧
    (∀ lang nm url, cookies_track_score ⟨lang, nm, some ("asr".data), url⟩ =
        cookies_track_score ⟨lang, nm, none, url⟩ + 1) ∧
    (∀ tracks t, pick_track tracks = some t →
        t ∈ tracks ∧ ∀ u ∈ tracks, track_score u ≤ track_score t) ∧
    (∀ tracks t, pick_track_cookies tracks = some t →
        t ∈ tracks ∧ ∀ u ∈ tracks, cookies_track_score u ≤ cookies_track_score t) := by
  refine ⟨?_, ?_, ?_, ?_⟩
  · intro lang nm url; simp [track_score]
  · intro lang nm url; simp [cookies_track_score]
  · intro tracks t h
    simp only [pick_track] at h
    cases hs : pySortDesc track_score tracks with
    | nil => rw [hs] at h; simp at h
    | cons b bs =>
      rw [hs] at h
      simp at h
      obtain ⟨u, v, hdec, _, hall⟩ := pySortDesc_head_firstMax track_score tracks b bs hs
      subst h
      exact ⟨hdec ▸ (by simp), hall⟩
  · intro tracks t h
    simp only [pick_track_cookies] at h
    cases hs : pySortDesc cookies_track_score tracks with
    | nil => rw [hs] at h; simp at h
    | cons b bs =>
      rw [hs] at h
      simp at h
      obtain ⟨u, v, hdec, _, hall⟩ := pySortDesc_head_firstMax cookies_track_score tracks b bs hs
      subst h
      exact ⟨hdec ▸ (by simp), hall⟩

/-- C1 witness: the amended theorem applied at a concrete two-track list in
which the selected track is the one of maximal score. -/
theorem c1_track_scoring_witness :
    track_score ⟨("fr".data), [], some ("asr".data), none⟩ =
      track_score ⟨("fr".data), [], none, none⟩ + 1 ∧
    ((⟨("en".data), [], some ("asr".data), some ("a".data)⟩ : CapTrack) ∈
        [(⟨("fr".data), [], none, some ("b".data)⟩ : CapTrack),
         ⟨("en".data), [], some ("asr".data), some ("a".data)⟩] ∧
      ∀ u ∈ [(⟨("fr".data), [], none, some ("b".data)⟩ : CapTrack),
             ⟨("en".data), [], some ("asr".data), some ("a".data)⟩],
        track_score u ≤ track_score ⟨("en".data), [], some ("asr".data), some ("a".data)⟩) :=
  ⟨c1_track_scoring_amended.1 ("fr".data) [] none,
   c1_track_scoring_amended.2.2.1 _ _ (by decide)⟩

/-- C2 counterexample: on the single-token input "hello" the claim's rule
(at least `tokenCount - 1 = 0` passing tokens) accepts, but the code
requires `max(1, tokenCount - 1) = 1` passing tokens and rejects. -/
theorem c2_threshold_counterexample :
    looks_like_person ("hello".data) = false ∧
    looks_like_person_claim ("hello".data) = true := by
  decide

/-- C2 (amended): `looks_like_person` normalizes dashes, tokenizes on
whitespace, requires 1..6 tokens, and accepts iff at least
`max(1, tokenCount - 1)` tokens pass (every nonempty hyphen piece starting
uppercase) — so a single-token input needs its one token to pass; the three
cited examples evaluate as claimed. -/
theorem c2_looks_like_person_amended :
    (∀ name : Str, looks_like_person name = true ↔
      (1 ≤ (pySplitWs (normDashes name)).length ∧
       (pySplitWs (normDashes name)).length ≤ 6 ∧
       max 1 ((pySplitWs (normDashes name)).length - 1) ≤
         ((pySplitWs (normDashes name)).filter tokenOk).length)) ∧
    looks_like_person ("Jared Kaplan".data) = true ∧
    looks_like_person ("how to build".data) = false ∧
    looks_like_person ("J. Smith".data) = true := by
  refine ⟨?_, by decide, by decide, by decide⟩
  intro name
  simp only [looks_like_person]
  by_cases h1 : 1 ≤ (pySplitWs (normDashes name)).length
  · by_cases h2 : (pySplitWs (normDashes name)).length ≤ 6
    · simp [h1, h2]
    · simp [h1, h2]
  · simp [h1]

set_option maxHeartbeats 2000000 in
/-- C8: playlist-candidate scoring gives "YC AI Startup School: Opening"
score 12 and "Startup School Vol 2" score 4; within one candidate list the
higher-scored candidate is selected in either discovery order; in general
the selected candidate has maximal score, and with equal scores the
first-discovered candidate is selected. -/
theorem c8_playlist_scoring :
    score_title_for_series ("YC AI Startup School: Opening".data) = 12 ∧
    score_title_for_series ("Startup School Vol 2".data) = 4 ∧
    pick_playlist [(("PLa".data), ("YC AI Startup School: Opening".data)),
                   (("PLb".data), ("Startup School Vol 2".data))] = some ("PLa".data) ∧
    pick_playlist [(("PLb".data), ("Startup School Vol 2".data)),
                   (("PLa".data), ("YC AI Startup School: Opening".data))] = some ("PLa".data) ∧
    (∀ cands pid, pick_playlist cands = some pid →
      ∃ c ∈ cands, c.1 = pid ∧
        ∀ d ∈ cands, score_title_for_series d.2 ≤ score_title_for_series c.2) ∧
    (∀ (cands : List (Str × Str)) (n : Nat),
      (∀ d ∈ cands, score_title_for_series d.2 = n) →
      pick_playlist cands = (cands.head?).map Prod.fst) := by
  refine ⟨by decide, by decide, by decide, by decide, ?_, ?_⟩
  · intro cands pid h
    simp only [pick_playlist] at h
    cases hs : pySortDesc (fun c => score_title_for_series c.2) cands with
    | nil => rw [hs] at h; simp at h
    | cons b bs =>
      rw [hs] at h
      simp at h
      obtain ⟨u, v, hdec, _, hall⟩ :=
        pySortDesc_head_firstMax (fun c => score_title_for_series c.2) cands b bs hs
      exact ⟨b, hdec ▸ (by simp), h, hall⟩
  · intro cands n h
    simp only [pick_playlist, pySortDesc_const (fun c => score_title_for_series c.2) n cands h]

set_option maxHeartbeats 2000000 in
/-- C8 witness: the general conjuncts applied at concrete candidate lists
(a strict-maximum list and an equal-score list). -/
theorem c8_playlist_scoring_witness :
    (∃ c ∈ [(("PLa".data), ("ai".data)), (("PLb".data), ("zz".data))],
        c.1 = ("PLa".data) ∧
        ∀ d ∈ [(("PLa".data), ("ai".data)), (("PLb".data), ("zz".data))],
          score_title_for_series d.2 ≤ score_title_for_series c.2) ∧
    pick_playlist [(("P1".data), ("tt".data)), (("P2".data), ("tt".data))] =
      some ("P1".data) :=
  ⟨c8_playlist_scoring.2.2.2.2.1 _ _ (by decide),
   by
    have h := c8_playlist_scoring.2.2.2.2.2
      [(("P1".data), ("tt".data)), (("P2".data), ("tt".data))]
      (score_title_for_series ("tt".data)) (by decide)
    simpa using h⟩

set_option maxHeartbeats 4000000 in
/-- C9: the three cited examples of `split_title_and_speaker`: a
"Speaker: Talk" title, a "Talk by Speaker" title, and a plain title with no
recognizable speaker. -/
theorem c9_split_title_examples :
    split_title_and_speaker ("Jared Kaplan: Scaling Laws".data) =
      (("Scaling Laws".data), some ("Jared Kaplan".data)) ∧
    split_title_and_speaker ("How We Built It by Jane Doe".data) =
      (("How We Built It".data), some ("Jane Doe".data)) ∧
    split_title_and_speaker ("Just A Talk Title".data) =
      (("Just A Talk Title".data), none) := by
  decide

/- ===== string lemmas ===== -/

theorem joinSp_cons_ex (x : Str) (v : List Str) : ∃ w, joinSp (x :: v) = x ++ w := by
  cases v with
  | nil => exact ⟨[], by simp [joinSp]⟩
  | cons y ys => exact ⟨' ' :: joinSp (y :: ys), rfl⟩

theorem joinSp_snoc (x : Str) : ∀ u : List Str, u ≠ [] →
    joinSp (u ++ [x]) = joinSp u ++ ' ' :: x := by
  intro u
  induction u with
  | nil => intro h; exact absurd rfl h
  | cons a as ih =>
    intro _
    cases as with
    | nil => simp [joinSp]
    | cons b bs =>
      show a ++ ' ' :: joinSp ((b :: bs) ++ [x]) = (a ++ ' ' :: joinSp (b :: bs)) ++ ' ' :: x
      rw [ih (by simp)]
      simp

theorem joinSp_append : ∀ (u v : List Str), u ≠ [] → v ≠ [] →
    joinSp (u ++ v) = joinSp u ++ ' ' :: joinSp v := by
  intro u
  induction u with
  | nil => intro v h _; exact absurd rfl h
  | cons a as ih =>
    intro v _ hv
    cases as with
    | nil =>
      cases v with
      | nil => exact absurd rfl hv
      | cons b bs => simp [joinSp]
    | cons c cs =>
      cases v with
      | nil => exact absurd rfl hv
      | cons b bs =>
        show a ++ ' ' :: joinSp ((c :: cs) ++ (b :: bs)) =
          (a ++ ' ' :: joinSp (c :: cs)) ++ ' ' :: joinSp (b :: bs)
        rw [ih (b :: bs) (by simp) (by simp)]
        simp

theorem joinSp_snoc_length (x : Str) (u : List Str) :
    (joinSp (u ++ [x])).length =
      if u = [] then x.length else (joinSp u).length + 1 + x.length := by
  cases u with
  | nil => simp [joinSp]
  | cons a as =>
    rw [joinSp_snoc x (a :: as) (by simp)]
    simp
    omega

theorem joinSp_length_le_append (u v : List Str) (hu : u ≠ []) :
    (joinSp u).length ≤ (joinSp (u ++ v)).length := by
  cases v with
  | nil => simp
  | cons b bs =>
    rw [joinSp_append u (b :: bs) hu (by simp)]
    simp

theorem dropWhile_head_false (p : Char → Bool) :
    ∀ (s : Str) c t, s.dropWhile p = c :: t → p c = false := by
  intro s
  induction s with
  | nil => intro c t h; simp [List.dropWhile] at h
  | cons a as ih =>
    intro c t h
    by_cases hp : p a = true
    · simp only [List.dropWhile, hp] at h; exact ih c t h
    · simp only [List.dropWhile, hp] at h
      rw [Bool.not_eq_true] at hp
      injection h with h1 _
      exact h1 ▸ hp

theorem dropWhile_snoc_false (p : Char → Bool) (c : Char) (hc : p c = false) :
    ∀ xs : Str, (xs ++ [c]).dropWhile p = xs.dropWhile p ++ [c] := by
  intro xs
  induction xs with
  | nil => simp [List.dropWhile, hc]
  | cons a as ih =>
    by_cases hp : p a = true
    · simp only [List.cons_append, List.dropWhile, hp]; exact ih
    · simp [List.dropWhile, hp]

theorem mem_dropWhile_of_false (p : Char → Bool) :
    ∀ (s : Str) c, c ∈ s → p c = false → c ∈ s.dropWhile p := by
  intro s
  induction s with
  | nil => intro c h _; simp at h
  | cons a as ih =>
    intro c hc hpc
    by_cases hp : p a = true
    · simp only [List.dropWhile, hp]
      rcases List.mem_cons.mp hc with h | h
      · subst h; rw [hpc] at hp; cases hp
      · exact ih c h hpc
    · simpa [List.dropWhile, hp] using hc

theorem mem_of_mem_dropWhile_str (p : Char → Bool) :
    ∀ (s : Str) c, c ∈ s.dropWhile p → c ∈ s := by
  intro s
  induction s with
  | nil => intro c h; simp [List.dropWhile] at h
  | cons a as ih =>
    intro c h
    by_cases hp : p a = true
    · simp only [List.dropWhile, hp] at h
      exact List.mem_cons_of_mem a (ih c h)
    · simpa [List.dropWhile, hp] using h

theorem pyStrip_head_false (s : Str) (c : Char) (t : Str) (h : pyStrip s = c :: t) :
    isSpace c = false := by
  unfold pyStrip at h
  cases hu : s.dropWhile isSpace with
  | nil => rw [hu] at h; simp at h
  | cons a u0 =>
    have ha : isSpace a = false := dropWhile_head_false isSpace s a u0 hu
    rw [hu, show (a :: u0).reverse = u0.reverse ++ [a] by simp,
        dropWhile_snoc_false isSpace a ha u0.reverse, List.reverse_append] at h
    simp at h
    exact h.1 ▸ ha

theorem pyStrip_getLast_false (s : Str) (c : Char)
    (h : (pyStrip s).getLast? = some c) : isSpace c = false := by
  unfold pyStrip at h
  rw [List.getLast?_reverse] at h
  cases hw : (s.dropWhile isSpace).reverse.dropWhile isSpace with
  | nil => rw [hw] at h; simp at h
  | cons x t =>
    rw [hw] at h
    simp at h
    exact h ▸ dropWhile_head_false isSpace _ x t hw

theorem mem_pyStrip (s : Str) (c : Char) (h : c ∈ pyStrip s) : c ∈ s := by
  unfold pyStrip at h
  rw [List.mem_reverse] at h
  have h2 := mem_of_mem_dropWhile_str isSpace _ c h
  rw [List.mem_reverse] at h2
  exact mem_of_mem_dropWhile_str isSpace s c h2

theorem pyStrip_ne_nil (s : Str) (c : Char) (hc : c ∈ s) (hsp : isSpace c = false) :
    pyStrip s ≠ [] := by
  unfold pyStrip
  intro h
  have h1 : c ∈ s.dropWhile isSpace := mem_dropWhile_of_false isSpace s c hc hsp
  have h2 : c ∈ (s.dropWhile isSpace).reverse := List.mem_reverse.mpr h1
  have h3 := mem_dropWhile_of_false isSpace _ c h2 hsp
  rw [show (s.dropWhile isSpace).reverse.dropWhile isSpace = [] from
    by simpa using congrArg List.reverse h] at h3
  simp at h3

theorem collapseGo_mem : ∀ (b : Bool) (s : Str) c, c ∈ collapseGo b s →
    c = ' ' ∨ (c ∈ s ∧ isSpace c = false) := by
  intro b s
  induction s generalizing b with
  | nil => intro c h; simp [collapseGo] at h
  | cons a as ih =>
    intro c h
    by_cases hs : isSpace a = true
    · cases b with
      | true =>
        simp only [collapseGo, hs, if_true] at h
        rcases ih true c h with h1 | ⟨h1, h2⟩
        · exact Or.inl h1
        · exact Or.inr ⟨List.mem_cons_of_mem a h1, h2⟩
      | false =>
        simp only [collapseGo, hs, if_true] at h
        rcases List.mem_cons.mp h with h1 | h1
        · exact Or.inl h1
        · rcases ih true c h1 with h2 | ⟨h2, h3⟩
          · exact Or.inl h2
          · exact Or.inr ⟨List.mem_cons_of_mem a h2, h3⟩
    · simp only [collapseGo, hs, if_false] at h
      rw [Bool.not_eq_true] at hs
      rcases List.mem_cons.mp h with h1 | h1
      · exact Or.inr ⟨h1 ▸ List.mem_cons_self a as, h1 ▸ hs⟩
      · rcases ih false c h1 with h2 | ⟨h2, h3⟩
        · exact Or.inl h2
        · exact Or.inr ⟨List.mem_cons_of_mem a h2, h3⟩

theorem mem_collapseGo : ∀ (b : Bool) (s : Str) c, c ∈ s → isSpace c = false →
    c ∈ collapseGo b s := by
  intro b s
  induction s generalizing b with
  | nil => intro c h _; simp at h
  | cons a as ih =>
    intro c hc hsp
    by_cases hs : isSpace a = true
    · have hmem : c ∈ as := by
        rcases List.mem_cons.mp hc with h1 | h1
        · rw [h1] at hsp; rw [hsp] at hs; cases hs
        · exact h1
      cases b with
      | true => simpa only [collapseGo, hs, if_true] using ih true c hmem hsp
      | false =>
        simp only [collapseGo, hs, if_true]
        exact List.mem_cons_of_mem ' ' (ih true c hmem hsp)
    · simp only [collapseGo, hs, if_false]
      rcases List.mem_cons.mp hc with h1 | h1
      · exact h1 ▸ List.mem_cons_self a _
      · exact List.mem_cons_of_mem a (ih false c h1 hsp)

theorem collapseGo_true_head : ∀ s : Str, collapseGo true s = [] ∨
    ∃ c t, collapseGo true s = c :: t ∧ isSpace c = false := by
  intro s
  induction s with
  | nil => left; rfl
  | cons a as ih =>
    by_cases hs : isSpace a = true
    · simpa only [collapseGo, hs, if_true] using ih
    · right
      refine ⟨a, collapseGo false as, by simp [collapseGo, hs], ?_⟩
      rwa [Bool.not_eq_true] at hs

theorem chain'_collapseGo : ∀ (b : Bool) (s : Str),
    List.Chain' (fun a b => ¬(isSpace a = true ∧ isSpace b = true)) (collapseGo b s) := by
  intro b s
  induction s generalizing b with
  | nil => simp [collapseGo]
  | cons a as ih =>
    by_cases hs : isSpace a = true
    · cases b with
      | true =>
        rw [show collapseGo true (a :: as) = collapseGo true as by simp [collapseGo, hs]]
        exact ih true
      | false =>
        rw [show collapseGo false (a :: as) = ' ' :: collapseGo true as by
          simp [collapseGo, hs]]
        rw [List.chain'_cons']
        refine ⟨?_, ih true⟩
        intro y hy
        rcases collapseGo_true_head as with hnil | ⟨c, t, hct, hcs⟩
        · rw [hnil] at hy; simp at hy
        · rw [hct] at hy
          simp at hy
          subst hy
          intro hcon
          rw [hcs] at hcon
          exact absurd hcon.2 (by simp)
    · rw [show collapseGo b (a :: as) = a :: collapseGo false as by
        cases b <;> simp [collapseGo, hs]]
      rw [List.chain'_cons']
      refine ⟨?_, ih false⟩
      intro y _ hcon
      exact hs hcon.1

theorem chain'_dropWhile {R : Char → Char → Prop} (p : Char → Bool) :
    ∀ s : Str, List.Chain' R s → List.Chain' R (s.dropWhile p) := by
  intro s
  induction s with
  | nil => intro h; exact h
  | cons a as ih =>
    intro h
    by_cases hp : p a = true
    · simp only [List.dropWhile, hp]; exact ih h.tail
    · simpa [List.dropWhile, hp] using h

theorem chain'_reverse_of (R : Char → Char → Prop) (hsym : ∀ a b, R a b → R b a) :
    ∀ s : Str, List.Chain' R s → List.Chain' R s.reverse := by
  intro s h
  rw [List.chain'_reverse]
  exact List.Chain'.imp (fun a b hab => hsym a b hab) h

theorem pyCollapse_clean (s : Str) (c0 : Char) (hc0 : c0 ∈ s)
    (hsp : isSpace c0 = false) : IsCleanPara (pyCollapse s) := by
  have hrel : ∀ a b : Char, (fun a b => ¬(isSpace a = true ∧ isSpace b = true)) a b →
      (fun a b => ¬(isSpace a = true ∧ isSpace b = true)) b a := by
    intro a b hab hcon; exact hab ⟨hcon.2, hcon.1⟩
  refine ⟨?_, ?_, ?_, ?_, ?_⟩
  · exact pyStrip_ne_nil _ c0 (mem_collapseGo false s c0 hc0 hsp) hsp
  · intro c hc
    rcases collapseGo_mem false s c (mem_pyStrip _ c hc) with h | ⟨_, h⟩
    · exact Or.inr h
    · exact Or.inl h
  · show List.Chain' _ (pyStrip (collapseGo false s))
    unfold pyStrip
    exact chain'_reverse_of _ hrel _ (chain'_dropWhile isSpace _
      (chain'_reverse_of _ hrel _ (chain'_dropWhile isSpace _ (chain'_collapseGo false s))))
  · intro c hc
    cases hps : pyStrip (collapseWs s) with
    | nil => rw [show pyCollapse s = pyStrip (collapseWs s) from rfl, hps] at hc; simp at hc
    | cons x t =>
      rw [show pyCollapse s = pyStrip (collapseWs s) from rfl, hps] at hc
      simp at hc
      exact hc ▸ pyStrip_head_false _ x t hps
  · intro c hc
    exact pyStrip_getLast_false _ c hc

theorem finalizeParas_invariant (paras : List Str) :
    TranscriptInvariant (finalizeParas paras) := by
  refine ⟨finalParas paras, ?_, rfl⟩
  intro p hp
  simp only [finalParas, List.mem_map] at hp
  obtain ⟨q, hq, rfl⟩ := hp
  have hne : pyStrip q ≠ [] := by
    have := (List.mem_filter.mp hq).2
    simpa using this
  cases hqs : pyStrip q with
  | nil => exact absurd hqs hne
  | cons c t =>
    have hcs : isSpace c = false := pyStrip_head_false q c t hqs
    have hcq : c ∈ q := mem_pyStrip q c (by rw [hqs]; simp)
    exact pyCollapse_clean q c hcq hcs

/-- C3 counterexample: on an unparseable input (an `ET.ParseError`, modelled
by `none`) `xml_to_paragraphs` returns the empty string, which does not end
with a trailing newline, so the invariant claimed for every input fails. -/
theorem c3_normalizer_output_counterexample :
    xml_to_paragraphs none = [] ∧ ¬ TranscriptInvariant (xml_to_paragraphs none) := by
  refine ⟨rfl, ?_⟩
  rintro ⟨ps, _, h⟩
  have hlen := congrArg List.length h
  simp [xml_to_paragraphs] at hlen

/-- C3 (amended): the VTT and library normalizers satisfy the output
invariant — only nonempty fully-whitespace-collapsed paragraphs, joined by
a blank line, with a trailing newline — on every input; the XML normalizer
satisfies it whenever parsing succeeds and at least one node carries
nonempty cleaned text, and returns the empty string (no trailing newline)
on a parse failure or when no usable text node exists. -/
theorem c3_normalizer_output_amended :
    (∀ lines, TranscriptInvariant (parse_vtt_to_paragraphs lines)) ∧
    (∀ segs, TranscriptInvariant (lib_transcript_text segs)) ∧
    (∀ nodes, xmlCleanLines nodes ≠ [] →
        TranscriptInvariant (xml_to_paragraphs (some nodes))) ∧
    xml_to_paragraphs none = [] ∧ xml_to_paragraphs (some []) = [] := by
  refine ⟨?_, ?_, ?_, rfl, rfl⟩
  · intro lines; exact finalizeParas_invariant _
  · intro segs; exact finalizeParas_invariant _
  · intro nodes h
    simp only [xml_to_paragraphs, if_neg h]
    exact finalizeParas_invariant _

/-- C3 witness: the amended XML conjunct applied at a concrete parsed node
list with usable text. -/
theorem c3_normalizer_output_witness :
    xmlCleanLines [(⟨⟨0, 1⟩, ⟨1, 1⟩, ("hi".data)⟩ : XmlNode)] ≠ [] ∧
    TranscriptInvariant (xml_to_paragraphs (some [⟨⟨0, 1⟩, ⟨1, 1⟩, ("hi".data)⟩])) :=
  ⟨by decide, c3_normalizer_output_amended.2.2.1 _ (by decide)⟩

/- ===== merge-loop lemmas ===== -/

theorem xmlStep_shape (st : MSt) (l : CLine) :
    ∃ ps bf,
      (((gapBig st.lastEnd l.s && !st.buf.isEmpty) = true ∧
          ps = st.paras ++ [joinSp st.buf] ∧ bf = ([] : List Str)) ∨
       ((gapBig st.lastEnd l.s && !st.buf.isEmpty) = false ∧
          ps = st.paras ∧ bf = st.buf)) ∧
      ((800 < (joinSp (bf ++ [l.txt])).length ∧
          xmlStep st l = ⟨ps ++ [joinSp (bf ++ [l.txt])], [], l.e⟩) ∨
       (¬ 800 < (joinSp (bf ++ [l.txt])).length ∧
          xmlStep st l = ⟨ps, bf ++ [l.txt], l.e⟩)) := by
  by_cases hg : (gapBig st.lastEnd l.s && !st.buf.isEmpty) = true
  · refine ⟨st.paras ++ [joinSp st.buf], [], Or.inl ⟨hg, rfl, rfl⟩, ?_⟩
    by_cases hc : 800 < (joinSp (([] : List Str) ++ [l.txt])).length
    · exact Or.inl ⟨hc, by simp only [xmlStep, hg, if_true]; rw [if_pos hc]⟩
    · exact Or.inr ⟨hc, by simp only [xmlStep, hg, if_true]; rw [if_neg hc]⟩
  · rw [Bool.not_eq_true] at hg
    refine ⟨st.paras, st.buf, Or.inr ⟨hg, rfl, rfl⟩, ?_⟩
    by_cases hc : 800 < (joinSp (st.buf ++ [l.txt])).length
    · exact Or.inl ⟨hc, by simp only [xmlStep, hg, Bool.false_eq_true, if_false]; rw [if_pos hc]⟩
    · exact Or.inr ⟨hc, by simp only [xmlStep, hg, Bool.false_eq_true, if_false]; rw [if_neg hc]⟩

theorem xmlMergeAux_bound (S : List Str) :
    ∀ (rest : List CLine) (st : MSt),
      (∀ l ∈ rest, l.txt ∈ S) →
      (joinSp st.buf).length ≤ 800 →
      (∀ p ∈ st.paras, p.length ≤ 800 ∨ ∃ f ∈ S, p.length ≤ 801 + f.length) →
      ∀ p ∈ xmlMergeAux st rest,
        p.length ≤ 800 ∨ ∃ f ∈ S, p.length ≤ 801 + f.length := by
  intro rest
  induction rest with
  | nil =>
    intro st _ hbuf hparas p hp
    simp only [xmlMergeAux] at hp
    rcases List.mem_append.mp hp with h | h
    · exact hparas p h
    · by_cases hb : st.buf.isEmpty
      · rw [if_pos hb] at h; simp at h
      · rw [if_neg hb] at h
        simp at h
        exact Or.inl (h ▸ hbuf)
  | cons l ls ih =>
    intro st hmem hbuf hparas p hp
    rw [show xmlMergeAux st (l :: ls) = xmlMergeAux (xmlStep st l) ls from rfl] at hp
    obtain ⟨ps, bf, hps, hstep⟩ := xmlStep_shape st l
    have hpsOK : ∀ q ∈ ps, q.length ≤ 800 ∨ ∃ f ∈ S, q.length ≤ 801 + f.length := by
      rcases hps with ⟨_, hps1, _⟩ | ⟨_, hps1, _⟩
      · rw [hps1]
        intro q hq
        rcases List.mem_append.mp hq with h | h
        · exact hparas q h
        · simp at h
          exact Or.inl (h ▸ hbuf)
      · rw [hps1]; exact hparas
    have hbfOK : (joinSp bf).length ≤ 800 := by
      rcases hps with ⟨_, _, hbf1⟩ | ⟨_, _, hbf1⟩
      · rw [hbf1]; simp [joinSp]
      · rw [hbf1]; exact hbuf
    have hnew : (joinSp (bf ++ [l.txt])).length ≤ 801 + l.txt.length := by
      rw [joinSp_snoc_length]
      by_cases hbfe : bf = []
      · rw [if_pos hbfe]; omega
      · rw [if_neg hbfe]; omega
    rcases hstep with ⟨hcap, heq⟩ | ⟨hcap, heq⟩
    · rw [heq] at hp
      refine ih _ (fun x hx => hmem x (List.mem_cons_of_mem l hx)) (by simp [joinSp]) ?_ p hp
      intro q hq
      rcases List.mem_append.mp hq with h | h
      · exact hpsOK q h
      · simp at h
        exact Or.inr ⟨l.txt, hmem l (List.mem_cons_self l ls), h ▸ hnew⟩
    · rw [heq] at hp
      exact ih _ (fun x hx => hmem x (List.mem_cons_of_mem l hx))
        (Nat.le_of_not_lt hcap) hpsOK p hp

theorem vttStep_shape (st : VSt) (ln : Str) :
    vttStep st ln = st ∨
    (pyStrip ln ≠ [] ∧
      (vttStep st ln = ⟨st.paras, st.buf.dropLast ++ [pyStrip ln], st.seen⟩ ∨
       vttStep st ln = ⟨st.paras, st.buf ++ [pyStrip ln], st.seen ++ [pyStrip ln]⟩ ∨
       vttStep st ln = ⟨st.paras ++ [joinSp (st.buf ++ [pyStrip ln])], [], []⟩)) := by
  by_cases hf : pyStrip ln = []
  · left; simp [vttStep, hf]
  · have happ : vttAppend st (pyStrip ln) = st ∨
        vttAppend st (pyStrip ln) = ⟨st.paras, st.buf ++ [pyStrip ln], st.seen ++ [pyStrip ln]⟩ ∨
        vttAppend st (pyStrip ln) = ⟨st.paras ++ [joinSp (st.buf ++ [pyStrip ln])], [], []⟩ := by
      by_cases hseen : st.seen.contains (pyStrip ln) = true
      · left
        simp only [vttAppend]
        rw [if_pos hseen]
      · by_cases hcap : 800 < (joinSp (st.buf ++ [pyStrip ln])).length
        · right; right
          simp only [vttAppend]
          rw [if_neg hseen, if_pos hcap]
        · right; left
          simp only [vttAppend]
          rw [if_neg hseen, if_neg hcap]
    cases hl : st.buf.getLast? with
    | none =>
      have hstep : vttStep st ln = vttAppend st (pyStrip ln) := by
        simp only [vttStep, hl]
        rw [if_neg hf]
      rcases happ with h | h | h
      · left; rw [hstep, h]
      · right; exact ⟨hf, Or.inr (Or.inl (hstep ▸ h))⟩
      · right; exact ⟨hf, Or.inr (Or.inr (hstep ▸ h))⟩
    | some last =>
      by_cases h1 : last = pyStrip ln
      · left
        simp only [vttStep, hl]
        rw [if_neg hf, if_pos h1]
      · by_cases h2 : (hasPrefB last (pyStrip ln) &&
            decide (last.length + 2 < (pyStrip ln).length)) = true
        · right
          refine ⟨hf, Or.inl ?_⟩
          simp only [vttStep, hl]
          rw [if_neg hf, if_neg h1, if_pos h2]
        · by_cases h3 : (hasPrefB (pyStrip ln) last &&
              decide ((pyStrip ln).length + 2 < last.length)) = true
          · left
            simp only [vttStep, hl]
            rw [if_neg hf, if_neg h1, if_neg h2, if_pos h3]
          · have hstep : vttStep st ln = vttAppend st (pyStrip ln) := by
              simp only [vttStep, hl]
              rw [if_neg hf, if_neg h1, if_neg h2, if_neg h3]
            rcases happ with h | h | h
            · left; rw [hstep, h]
            · right; exact ⟨hf, Or.inr (Or.inl (hstep ▸ h))⟩
            · right; exact ⟨hf, Or.inr (Or.inr (hstep ▸ h))⟩

theorem mem_of_mem_dropLast {α : Type} : ∀ (l : List α) (x : α), x ∈ l.dropLast → x ∈ l := by
  intro l x h
  exact (List.dropLast_sublist l).subset h

theorem vttMergeAux_struct (F : List Str) :
    ∀ (rest : List Str) (st : VSt),
      (∀ ln ∈ rest, pyStrip ln ≠ [] → pyStrip ln ∈ F) →
      (∀ f ∈ st.buf, f ∈ F) →
      (∀ p ∈ st.paras, ∃ fs, p = joinSp fs ∧ fs ≠ [] ∧ ∀ f ∈ fs, f ∈ F) →
      ∀ p ∈ vttMergeAux st rest,
        ∃ fs, p = joinSp fs ∧ fs ≠ [] ∧ ∀ f ∈ fs, f ∈ F := by
  intro rest
  induction rest with
  | nil =>
    intro st _ hbuf hparas p hp
    simp only [vttMergeAux] at hp
    rcases List.mem_append.mp hp with h | h
    · exact hparas p h
    · by_cases hb : st.buf.isEmpty
      · rw [if_pos hb] at h; simp at h
      · rw [if_neg hb] at h
        simp at h
        exact ⟨st.buf, h, by simpa [List.isEmpty_iff] using hb, hbuf⟩
  | cons ln ls ih =>
    intro st hmem hbuf hparas p hp
    rw [show vttMergeAux st (ln :: ls) = vttMergeAux (vttStep st ln) ls from rfl] at hp
    have hmem2 : ∀ x ∈ ls, pyStrip x ≠ [] → pyStrip x ∈ F :=
      fun x hx => hmem x (List.mem_cons_of_mem ln hx)
    have hfragF : pyStrip ln ≠ [] → pyStrip ln ∈ F :=
      hmem ln (List.mem_cons_self ln ls)
    rcases vttStep_shape st ln with heq | ⟨hfrag, heq | heq | heq⟩
    · rw [heq] at hp
      exact ih st hmem2 hbuf hparas p hp
    · rw [heq] at hp
      refine ih ⟨st.paras, st.buf.dropLast ++ [pyStrip ln], st.seen⟩ hmem2 ?_ ?_ p hp
      · intro f hf
        rcases List.mem_append.mp hf with h | h
        · exact hbuf f (mem_of_mem_dropLast _ f h)
        · simp at h
          exact h ▸ hfragF hfrag
      · exact hparas
    · rw [heq] at hp
      refine ih ⟨st.paras, st.buf ++ [pyStrip ln], st.seen ++ [pyStrip ln]⟩ hmem2 ?_ ?_ p hp
      · intro f hf
        rcases List.mem_append.mp hf with h | h
        · exact hbuf f h
        · simp at h
          exact h ▸ hfragF hfrag
      · exact hparas
    · rw [heq] at hp
      refine ih ⟨st.paras ++ [joinSp (st.buf ++ [pyStrip ln])], [], []⟩ hmem2
        (by intro f hf; simp at hf) ?_ p hp
      intro q hq
      rcases List.mem_append.mp hq with h | h
      · exact hparas q h
      · simp at h
        refine ⟨st.buf ++ [pyStrip ln], h, by simp, ?_⟩
        intro f hf
        rcases List.mem_append.mp hf with h2 | h2
        · exact hbuf f h2
        · simp at h2
          exact h2 ▸ hfragF hfrag

theorem vttFrags_mem (lines : List Str) (ln : Str) (h : ln ∈ vttCleanLines lines)
    (hne : pyStrip ln ≠ []) : pyStrip ln ∈ vttFrags lines := by
  simp only [vttFrags, List.mem_filterMap]
  exact ⟨ln, h, by rw [if_neg hne]⟩

/-- C7: in `parse_vtt_to_paragraphs`, a fragment equal to the buffer tail
is dropped; a fragment extending the buffer tail by at least 3 characters
replaces it; a fragment that is a leading segment of the buffer tail and at
least 3 characters shorter is dropped; and the cited rolling-caption and
duplicate-line examples produce "Hello world" and "Hello" once each. -/
theorem c7_vtt_dedup_rollup :
    (∀ st ln last, st.buf.getLast? = some last → pyStrip ln = last →
        vttStep st ln = st) ∧
    (∀ st ln last, st.buf.getLast? = some last →
        hasPrefB last (pyStrip ln) = true → last.length + 2 < (pyStrip ln).length →
        vttStep st ln = ⟨st.paras, st.buf.dropLast ++ [pyStrip ln], st.seen⟩) ∧
    (∀ st ln last, st.buf.getLast? = some last →
        hasPrefB (pyStrip ln) last = true → (pyStrip ln).length + 2 < last.length →
        vttStep st ln = st) ∧
    parse_vtt_to_paragraphs [("Hello".data), ("Hello world".data)] =
      ("Hello world\n".data) ∧
    parse_vtt_to_paragraphs [("Hello".data), ("Hello".data)] = ("Hello\n".data) := by
  refine ⟨?_, ?_, ?_, by decide, by decide⟩
  · intro st ln last hl he
    by_cases hf : pyStrip ln = []
    · simp [vttStep, hf]
    · simp only [vttStep, hl]
      rw [if_neg hf, if_pos he.symm]
  · intro st ln last hl hpref hlen
    have hf : pyStrip ln ≠ [] := by
      intro h
      rw [h] at hlen
      simp at hlen
    have h1 : ¬ last = pyStrip ln := by
      intro h
      rw [h] at hlen
      omega
    simp only [vttStep, hl]
    rw [if_neg hf, if_neg h1, if_pos (by simp [hpref, hlen])]
  · intro st ln last hl hpref hlen
    by_cases hf : pyStrip ln = []
    · simp [vttStep, hf]
    · have h1 : ¬ last = pyStrip ln := by
        intro h
        rw [h] at hlen
        omega
      have h2 : ¬ (hasPrefB last (pyStrip ln) &&
          decide (last.length + 2 < (pyStrip ln).length)) = true := by
        simp only [Bool.and_eq_true, decide_eq_true_eq]
        rintro ⟨-, hcon⟩
        omega
      simp only [vttStep, hl]
      rw [if_neg hf, if_neg h1, if_neg h2, if_pos (by simp [hpref, hlen])]

/-- C7 witness: the three step-level facts applied at concrete buffer
states — an exact duplicate, a roll-up extension, and a shrinking leading
segment. -/
theorem c7_vtt_dedup_witness :
    vttStep ⟨[], [("Hello".data)], [("Hello".data)]⟩ ("Hello".data) =
      ⟨[], [("Hello".data)], [("Hello".data)]⟩ ∧
    vttStep ⟨[], [("Hello".data)], [("Hello".data)]⟩ ("Hello world".data) =
      ⟨([] : List Str),
       ([("Hello".data)] : List Str).dropLast ++ [pyStrip ("Hello world".data)],
       [("Hello".data)]⟩ ∧
    vttStep ⟨[], [("Hello world".data)], [("Hello world".data)]⟩ ("Hello".data) =
      ⟨[], [("Hello world".data)], [("Hello world".data)]⟩ :=
  ⟨c7_vtt_dedup_rollup.1 ⟨[], [("Hello".data)], [("Hello".data)]⟩
     ("Hello".data) ("Hello".data) (by decide) (by decide),
   c7_vtt_dedup_rollup.2.1 ⟨[], [("Hello".data)], [("Hello".data)]⟩
     ("Hello world".data) ("Hello".data) (by decide) (by decide) (by decide),
   c7_vtt_dedup_rollup.2.2.1 ⟨[], [("Hello world".data)], [("Hello world".data)]⟩
     ("Hello".data) ("Hello world".data) (by decide) (by decide) (by decide)⟩

/-- C4 (amended): in the XML and library normalizers every emitted
paragraph is at most 800 characters long, or else bounded by 800 plus the
joining space plus the length of the fragment whose addition triggered the
flush (so at most `801 + |fragment|` for some input fragment); in the VTT
normalizer every emitted paragraph is a space-join of whole input
fragments (fragments are never truncated), but the roll-up replacement
path skips the length check, so the 800-plus-trigger bound can be
exceeded there. -/
theorem c4_paragraph_cap_amended :
    (∀ (nodes : List XmlNode), ∀ p ∈ xmlMergeParas (xmlSorted nodes),
        p.length ≤ 800 ∨ ∃ l ∈ xmlSorted nodes, p.length ≤ 801 + l.txt.length) ∧
    (∀ (segs : List Seg), ∀ p ∈ libMergeParas (libCleanLines segs),
        p.length ≤ 800 ∨ ∃ l ∈ libCleanLines segs, p.length ≤ 801 + l.txt.length) ∧
    (∀ (lines : List Str), ∀ p ∈ vttMergeParas (vttCleanLines lines),
        ∃ fs, p = joinSp fs ∧ fs ≠ [] ∧ ∀ f ∈ fs, f ∈ vttFrags lines) := by
  refine ⟨?_, ?_, ?_⟩
  · intro nodes p hp
    cases hL : xmlSorted nodes with
    | nil => rw [hL] at hp; simp [xmlMergeParas] at hp
    | cons l0 rest =>
      rw [hL] at hp
      simp only [xmlMergeParas] at hp
      have hb := xmlMergeAux_bound ((l0 :: rest).map CLine.txt) (l0 :: rest)
        ⟨[], [], l0.e⟩ (fun l hl => List.mem_map_of_mem CLine.txt hl)
        (by simp [joinSp]) (by simp) p hp
      rcases hb with h | ⟨f, hf, hlen⟩
      · exact Or.inl h
      · rw [List.mem_map] at hf
        obtain ⟨l, hl, rfl⟩ := hf
        exact Or.inr ⟨l, hL ▸ hl, hlen⟩
  · intro segs p hp
    have hb := xmlMergeAux_bound ((libCleanLines segs).map CLine.txt)
      (libCleanLines segs) ⟨[], [], ⟨0, 1⟩⟩
      (fun l hl => List.mem_map_of_mem CLine.txt hl) (by simp [joinSp]) (by simp) p hp
    rcases hb with h | ⟨f, hf, hlen⟩
    · exact Or.inl h
    · rw [List.mem_map] at hf
      obtain ⟨l, hl, rfl⟩ := hf
      exact Or.inr ⟨l, hl, hlen⟩
  · intro lines p hp
    exact vttMergeAux_struct (vttFrags lines) (vttCleanLines lines) ⟨[], [], []⟩
      (fun ln hln hne => vttFrags_mem lines ln hln hne) (by simp) (by simp) p hp

/-- C4 witness: the amended XML bound applied at a concrete one-node
input. -/
theorem c4_paragraph_cap_witness :
    ("hi".data) ∈ xmlMergeParas (xmlSorted [(⟨⟨0, 1⟩, ⟨1, 1⟩, ("hi".data)⟩ : XmlNode)]) ∧
    (("hi".data).length ≤ 800 ∨
      ∃ l ∈ xmlSorted [(⟨⟨0, 1⟩, ⟨1, 1⟩, ("hi".data)⟩ : XmlNode)],
        ("hi".data).length ≤ 801 + l.txt.length) :=
  ⟨by decide, c4_paragraph_cap_amended.1 _ _ (by decide)⟩

set_option maxRecDepth 100000 in
set_option maxHeartbeats 16000000 in
/-- C4 counterexample: in `parse_vtt_to_paragraphs` a 401-character
fragment is roll-up-replaced by an 802-character extension (no length
check runs on replacement), and the subsequent 1-character fragment "z"
triggers the flush; the single emitted paragraph has 804 characters,
exceeding 800 plus the length of the triggering fragment (801), so the
claimed bound fails. -/
theorem c4_paragraph_cap_counterexample :
    vttMergeParas (vttCleanLines
      [List.replicate 401 'x',
       List.replicate 401 'x' ++ List.replicate 401 'y',
       ("z".data)]) =
      [(List.replicate 401 'x' ++ List.replicate 401 'y') ++ (" z".data)] ∧
    ((List.replicate 401 'x' ++ List.replicate 401 'y') ++ (" z".data)).length = 804 ∧
    800 + ("z".data).length < 804 := by
  refine ⟨by decide, by decide, by decide⟩

theorem mem_insertByStart : ∀ (xs : List CLine) (l y : CLine),
    y ∈ insertByStart l xs → y = l ∨ y ∈ xs := by
  intro xs
  induction xs with
  | nil => intro l y h; simp [insertByStart] at h; exact Or.inl h
  | cons x xs ih =>
    intro l y h
    by_cases hc : Ti.ble l.s x.s = true
    · rw [show insertByStart l (x :: xs) = l :: x :: xs by simp [insertByStart, hc]] at h
      rcases List.mem_cons.mp h with h1 | h1
      · exact Or.inl h1
      · exact Or.inr h1
    · rw [show insertByStart l (x :: xs) = x :: insertByStart l xs by
        simp [insertByStart, hc]] at h
      rcases List.mem_cons.mp h with h1 | h1
      · exact Or.inr (h1 ▸ List.mem_cons_self x xs)
      · rcases ih l y h1 with h2 | h2
        · exact Or.inl h2
        · exact Or.inr (List.mem_cons_of_mem x h2)

theorem mem_sortByStart : ∀ (xs : List CLine) (y : CLine),
    y ∈ sortByStart xs → y ∈ xs := by
  intro xs
  induction xs with
  | nil => intro y h; simp [sortByStart] at h
  | cons x xs ih =>
    intro y h
    rcases mem_insertByStart (sortByStart xs) x y h with h1 | h1
    · exact h1 ▸ List.mem_cons_self x xs
    · exact List.mem_cons_of_mem x (ih y h1)

theorem xmlCleanLines_txt (nodes : List XmlNode) (l : CLine)
    (h : l ∈ xmlCleanLines nodes) :
    ∃ c t, l.txt = c :: t ∧ isSpace c = false := by
  obtain ⟨n, _, hcn⟩ := List.mem_filterMap.mp h
  unfold cleanNode at hcn
  by_cases he : pyStrip ((n.text).map (fun c => if c = '\n' then ' ' else c)) = []
  · rw [if_pos he] at hcn; cases hcn
  · rw [if_neg he] at hcn
    have hl := Option.some.inj hcn
    cases hps : pyStrip ((n.text).map (fun c => if c = '\n' then ' ' else c)) with
    | nil => exact absurd hps he
    | cons c t =>
      refine ⟨c, t, ?_, pyStrip_head_false _ c t hps⟩
      rw [← hl]
      exact hps

theorem xmlSorted_txt (nodes : List XmlNode) (l : CLine) (h : l ∈ xmlSorted nodes) :
    ∃ c t, l.txt = c :: t ∧ isSpace c = false :=
  xmlCleanLines_txt nodes l (mem_sortByStart _ l h)

theorem xmlMergeAux_noflush :
    ∀ (ls : List CLine) (buf : List Str) (le : Ti) (paras : List Str),
      buf ≠ [] → ChainTight le ls →
      (joinSp (buf ++ ls.map CLine.txt)).length ≤ 800 →
      xmlMergeAux ⟨paras, buf, le⟩ ls = paras ++ [joinSp (buf ++ ls.map CLine.txt)] := by
  intro ls
  induction ls with
  | nil =>
    intro buf le paras hb _ _
    simp only [xmlMergeAux, List.map_nil, List.append_nil]
    rw [if_neg (by simpa [List.isEmpty_iff] using hb)]
  | cons l ls ih =>
    intro buf le paras hb hchain htot
    obtain ⟨_, hgap, hchain2⟩ := hchain
    have hcaple : (joinSp (buf ++ [l.txt])).length ≤ 800 := by
      calc (joinSp (buf ++ [l.txt])).length
          ≤ (joinSp ((buf ++ [l.txt]) ++ ls.map CLine.txt)).length :=
            joinSp_length_le_append _ _ (by simp)
        _ = (joinSp (buf ++ (l :: ls).map CLine.txt)).length := by
            rw [List.append_assoc]
            simp
        _ ≤ 800 := htot
    obtain ⟨ps, bf, hps, hstep⟩ := xmlStep_shape ⟨paras, buf, le⟩ l
    have hcond : (gapBig (MSt.mk paras buf le).lastEnd l.s &&
        !(MSt.mk paras buf le).buf.isEmpty) = false := by
      simp [hgap]
    rcases hps with ⟨hc, _, _⟩ | ⟨_, hps1, hbf1⟩
    · rw [hcond] at hc; cases hc
    · rcases hstep with ⟨hcap, _⟩ | ⟨_, heq⟩
      · have hcap2 : 800 < (joinSp (buf ++ [l.txt])).length := by simpa [hbf1] using hcap
        omega
      · rw [show xmlMergeAux ⟨paras, buf, le⟩ (l :: ls) =
            xmlMergeAux (xmlStep ⟨paras, buf, le⟩ l) ls from rfl, heq, hps1, hbf1]
        rw [ih (buf ++ [l.txt]) l.e paras (by simp) hchain2
          (by rw [List.append_assoc]; simpa using htot)]
        rw [List.append_assoc]
        simp

set_option maxHeartbeats 1000000 in
/-- C6: for a parsed node list whose cleaned, start-time-sorted lines are
non-overlapping, contain no gap over 2.5 seconds, and have a space-joined
total length of at most 800 characters, `xml_to_paragraphs` emits exactly
one paragraph: all node texts joined by single spaces in ascending
start-time order (the pipeline sorts, so the input order is irrelevant). -/
theorem c6_single_paragraph :
    ∀ (nodes : List XmlNode) (l0 : CLine) (rest : List CLine),
      xmlSorted nodes = l0 :: rest →
      ChainTight l0.e rest →
      (joinSp ((l0 :: rest).map CLine.txt)).length ≤ 800 →
      xmlMergeParas (xmlSorted nodes) = [joinSp ((xmlSorted nodes).map CLine.txt)] ∧
      xml_to_paragraphs (some nodes) =
        pyCollapse (joinSp ((xmlSorted nodes).map CLine.txt)) ++ ("\n".data) := by
  intro nodes l0 rest hL hchain htot
  have hmerged : xmlMergeParas (xmlSorted nodes) =
      [joinSp ((xmlSorted nodes).map CLine.txt)] := by
    rw [hL]
    simp only [xmlMergeParas]
    have hcap0 : (joinSp ([l0.txt] ++ rest.map CLine.txt)).length ≤ 800 := by
      simpa using htot
    have hcap1 : ¬ 800 < (joinSp ([] ++ [l0.txt])).length := by
      have := joinSp_length_le_append [l0.txt] (rest.map CLine.txt) (by simp)
      simp only [List.nil_append]
      omega
    have hstep : xmlStep ⟨[], [], l0.e⟩ l0 = ⟨[], [l0.txt], l0.e⟩ := by
      obtain ⟨ps, bf, hps, hstep⟩ := xmlStep_shape ⟨[], [], l0.e⟩ l0
      have hcond : (gapBig (MSt.mk [] [] l0.e).lastEnd l0.s &&
          !(MSt.mk [] [] l0.e).buf.isEmpty) = false := by simp
      rcases hps with ⟨hc, _, _⟩ | ⟨_, hps1, hbf1⟩
      · rw [hcond] at hc; cases hc
      · rcases hstep with ⟨hcap, _⟩ | ⟨_, heq⟩
        · exact absurd (by simpa [hbf1] using hcap : 800 < (joinSp ([] ++ [l0.txt])).length) hcap1
        · rw [heq, hps1, hbf1]
          rfl
    rw [show xmlMergeAux ⟨[], [], l0.e⟩ (l0 :: rest) =
        xmlMergeAux (xmlStep ⟨[], [], l0.e⟩ l0) rest from rfl, hstep]
    rw [xmlMergeAux_noflush rest [l0.txt] l0.e [] (by simp) hchain (by simpa using htot)]
    simp
  refine ⟨hmerged, ?_⟩
  have hclean : xmlCleanLines nodes ≠ [] := by
    intro h
    rw [show xmlSorted nodes = sortByStart (xmlCleanLines nodes) from rfl, h] at hL
    simp [sortByStart] at hL
  simp only [xml_to_paragraphs, if_neg hclean]
  rw [hmerged]
  obtain ⟨c, t, htxt, hcs⟩ := xmlSorted_txt nodes l0 (by rw [hL]; simp)
  have hcj : c ∈ joinSp ((xmlSorted nodes).map CLine.txt) := by
    rw [hL]
    obtain ⟨w, hw⟩ := joinSp_cons_ex l0.txt (rest.map CLine.txt)
    simp only [List.map_cons]
    rw [hw]
    exact List.mem_append_left w (by rw [htxt]; simp)
  have hstrip : pyStrip (joinSp ((xmlSorted nodes).map CLine.txt)) ≠ [] :=
    pyStrip_ne_nil _ c hcj hcs
  simp only [finalizeParas, finalParas]
  rw [show List.filter (fun p => decide (pyStrip p ≠ []))
      [joinSp ((xmlSorted nodes).map CLine.txt)] =
      [joinSp ((xmlSorted nodes).map CLine.txt)] from by simp [hstrip]]
  simp [joinWith]

set_option maxHeartbeats 1000000 in
/-- C6 witness: two out-of-order nodes 1 second apart with 11 joined
characters produce the single paragraph "hello world". -/
theorem c6_single_paragraph_witness :
    xmlMergeParas (xmlSorted
      [(⟨⟨2, 1⟩, ⟨1, 1⟩, ("world".data)⟩ : XmlNode), ⟨⟨0, 1⟩, ⟨1, 1⟩, ("hello".data)⟩]) =
      [joinSp ((xmlSorted
        [(⟨⟨2, 1⟩, ⟨1, 1⟩, ("world".data)⟩ : XmlNode),
         ⟨⟨0, 1⟩, ⟨1, 1⟩, ("hello".data)⟩]).map CLine.txt)] ∧
    xml_to_paragraphs (some
      [(⟨⟨2, 1⟩, ⟨1, 1⟩, ("world".data)⟩ : XmlNode), ⟨⟨0, 1⟩, ⟨1, 1⟩, ("hello".data)⟩]) =
      pyCollapse (joinSp ((xmlSorted
        [(⟨⟨2, 1⟩, ⟨1, 1⟩, ("world".data)⟩ : XmlNode),
         ⟨⟨0, 1⟩, ⟨1, 1⟩, ("hello".data)⟩]).map CLine.txt)) ++ ("\n".data) :=
  c6_single_paragraph _
    ⟨⟨0, 1⟩, ⟨1, 1⟩, ("hello".data)⟩
    [⟨⟨2, 1⟩, ⟨3, 1⟩, ("world".data)⟩]
    (by decide) ⟨by decide, by decide, trivial⟩ (by decide)

theorem xmlMergeAux_cons (st : MSt) (l : CLine) (ls : List CLine) :
    xmlMergeAux st (l :: ls) = xmlMergeAux (xmlStep st l) ls := rfl

theorem xmlMergeAux_paras_ext : ∀ (rest : List CLine) (st : MSt),
    ∃ ext, xmlMergeAux st rest = st.paras ++ ext := by
  intro rest
  induction rest with
  | nil =>
    intro st
    exact ⟨if st.buf.isEmpty then [] else [joinSp st.buf], rfl⟩
  | cons l ls ih =>
    intro st
    obtain ⟨ps, bf, hps, hstep⟩ := xmlStep_shape st l
    obtain ⟨ext, hext⟩ := ih (xmlStep st l)
    have hp2 : ∃ e0, (xmlStep st l).paras = st.paras ++ e0 := by
      rcases hstep with ⟨_, heq⟩ | ⟨_, heq⟩ <;>
        rcases hps with ⟨_, hps1, _⟩ | ⟨_, hps1, _⟩
      · exact ⟨[joinSp st.buf] ++ [joinSp (bf ++ [l.txt])], by rw [heq]; simp [hps1]⟩
      · exact ⟨[joinSp (bf ++ [l.txt])], by rw [heq]; simp [hps1]⟩
      · exact ⟨[joinSp st.buf], by rw [heq]; simp [hps1]⟩
      · exact ⟨[], by rw [heq]; simp [hps1]⟩
    obtain ⟨e0, he0⟩ := hp2
    refine ⟨e0 ++ ext, ?_⟩
    rw [xmlMergeAux_cons, hext, he0, List.append_assoc]

theorem xmlMergeAux_pending : ∀ (rest : List CLine) (paras buf : List Str) (le : Ti),
    buf ≠ [] →
    ∃ ext R, xmlMergeAux ⟨paras, buf, le⟩ rest = paras ++ (joinSp (buf ++ ext)) :: R := by
  intro rest
  induction rest with
  | nil =>
    intro paras buf le hb
    refine ⟨[], [], ?_⟩
    simp only [xmlMergeAux]
    rw [if_neg (by simpa [List.isEmpty_iff] using hb)]
    simp
  | cons l ls ih =>
    intro paras buf le hb
    obtain ⟨ps, bf, hps, hstep⟩ := xmlStep_shape ⟨paras, buf, le⟩ l
    rcases hps with ⟨_, hps1, hbf1⟩ | ⟨_, hps1, hbf1⟩
    · -- gap flush: the pending paragraph is joinSp buf itself
      rcases hstep with ⟨_, heq⟩ | ⟨_, heq⟩
      · obtain ⟨ext2, hext2⟩ := xmlMergeAux_paras_ext ls (xmlStep ⟨paras, buf, le⟩ l)
        refine ⟨[], [joinSp (bf ++ [l.txt])] ++ ext2, ?_⟩
        rw [xmlMergeAux_cons, hext2, heq]
        simp [hps1]
      · obtain ⟨ext2, hext2⟩ := xmlMergeAux_paras_ext ls (xmlStep ⟨paras, buf, le⟩ l)
        refine ⟨[], ext2, ?_⟩
        rw [xmlMergeAux_cons, hext2, heq]
        simp [hps1]
    · -- no gap flush: ps = paras, bf = buf
      rcases hstep with ⟨_, heq⟩ | ⟨_, heq⟩
      · -- cap flush at this element: the pending paragraph ends with l.txt
        obtain ⟨ext2, hext2⟩ := xmlMergeAux_paras_ext ls (xmlStep ⟨paras, buf, le⟩ l)
        refine ⟨[l.txt], ext2, ?_⟩
        rw [xmlMergeAux_cons, hext2, heq]
        simp [hps1, hbf1]
      · -- still accumulating
        obtain ⟨ext2, R, hR⟩ := ih ps (bf ++ [l.txt]) l.e (by simp)
        refine ⟨[l.txt] ++ ext2, R, ?_⟩
        rw [xmlMergeAux_cons, heq, hR, hps1, hbf1]
        simp [List.append_assoc]

theorem xmlStep_lastEnd (st : MSt) (l : CLine) : (xmlStep st l).lastEnd = l.e := by
  obtain ⟨ps, bf, _, hstep⟩ := xmlStep_shape st l
  rcases hstep with ⟨_, heq⟩ | ⟨_, heq⟩ <;> rw [heq]

theorem xmlStep_last_shape (st : MSt) (a : CLine) :
    ((xmlStep st a).buf = [] ∧ ∃ Q w, (xmlStep st a).paras = Q ++ [w ++ a.txt]) ∨
    (∃ w, (xmlStep st a).buf = w ++ [a.txt]) := by
  obtain ⟨ps, bf, _, hstep⟩ := xmlStep_shape st a
  rcases hstep with ⟨_, heq⟩ | ⟨_, heq⟩
  · left
    rw [heq]
    refine ⟨rfl, ps, ?_⟩
    by_cases hbf : bf = []
    · exact ⟨[], by simp [hbf, joinSp]⟩
    · exact ⟨joinSp bf ++ [' '], by rw [joinSp_snoc _ _ hbf]; simp⟩
  · right
    rw [heq]
    exact ⟨bf, rfl⟩

theorem finalParas_two (Q R : List Str) (p1 p2 : Str)
    (h1 : pyStrip p1 ≠ []) (h2 : pyStrip p2 ≠ []) :
    2 ≤ (finalParas (Q ++ p1 :: p2 :: R)).length := by
  simp only [finalParas, List.length_map, List.filter_append, List.length_append]
  rw [show List.filter (fun p => decide (pyStrip p ≠ [])) (p1 :: p2 :: R) =
      p1 :: p2 :: List.filter (fun p => decide (pyStrip p ≠ [])) R from by
    simp [List.filter_cons, h1, h2]]
  simp
  omega

theorem xmlMergeAux_append : ∀ (xs ys : List CLine) (st : MSt),
    xmlMergeAux st (xs ++ ys) = xmlMergeAux (List.foldl xmlStep st xs) ys := by
  intro xs
  induction xs with
  | nil => intro ys st; rfl
  | cons x xs ih =>
    intro ys st
    simp only [List.cons_append, List.foldl_cons]
    exact ih ys (xmlStep st x)

set_option maxHeartbeats 1000000 in
/-- C5: when the cleaned, start-time-sorted line list contains two
consecutive lines whose gap (next start minus previous end) exceeds 2.5
seconds, the merge emits at least two final paragraphs and the break falls
exactly at the gap: some paragraph ends with the pre-gap line's text and
the immediately following paragraph starts with the post-gap line's
text. -/
theorem c5_gap_split :
    ∀ (nodes : List XmlNode) (A : List CLine) (a b : CLine) (B : List CLine),
      xmlSorted nodes = A ++ a :: b :: B →
      gapBig a.e b.s = true →
      (∃ Q R w v,
          xmlMergeParas (xmlSorted nodes) = Q ++ (w ++ a.txt) :: (b.txt ++ v) :: R) ∧
      2 ≤ (finalParas (xmlMergeParas (xmlSorted nodes))).length := by
  intro nodes A a b B hL hgap
  have hkey : ∃ Q R w v,
      xmlMergeParas (xmlSorted nodes) = Q ++ (w ++ a.txt) :: (b.txt ++ v) :: R := by
    cases hL0 : xmlSorted nodes with
    | nil =>
      rw [hL0] at hL
      exact absurd hL.symm (by simp)
    | cons l0 rest =>
      have hsplit : (l0 :: rest : List CLine) = (A ++ [a]) ++ (b :: B) := by
        rw [← hL0, hL]
        simp
      have hm : xmlMergeParas (l0 :: rest) =
          xmlMergeAux (List.foldl xmlStep ⟨[], [], l0.e⟩ (A ++ [a])) (b :: B) := by
        simp only [xmlMergeParas]
        rw [hsplit, xmlMergeAux_append]
      set st1 := List.foldl xmlStep ⟨[], [], l0.e⟩ (A ++ [a]) with hst1
      have hfold : st1 = xmlStep (List.foldl xmlStep ⟨[], [], l0.e⟩ A) a := by
        rw [hst1, List.foldl_append]
        rfl
      have hle1 : st1.lastEnd = a.e := by rw [hfold]; exact xmlStep_lastEnd _ a
      have hshape := xmlStep_last_shape (List.foldl xmlStep ⟨[], [], l0.e⟩ A) a
      rw [← hfold] at hshape
      rcases hshape with ⟨hbufe, Q, w, hpars⟩ | ⟨w, hbufp⟩
      · -- buffer empty after a: its paragraph was already flushed
        obtain ⟨ps, bf, hps, hstep⟩ := xmlStep_shape st1 b
        have hcond : (gapBig st1.lastEnd b.s && !st1.buf.isEmpty) = false := by
          rw [hbufe]
          simp
        rcases hps with ⟨hc, _, _⟩ | ⟨_, hps1, hbf1⟩
        · rw [hcond] at hc; cases hc
        · have hbfe2 : bf = [] := by rw [hbf1, hbufe]
          rcases hstep with ⟨_, heq⟩ | ⟨_, heq⟩
          · obtain ⟨ext2, hext2⟩ := xmlMergeAux_paras_ext B (xmlStep st1 b)
            refine ⟨Q, ext2, w, [], ?_⟩
            rw [hm, show xmlMergeAux st1 (b :: B) =
                xmlMergeAux (xmlStep st1 b) B from rfl, hext2, heq, hps1, hpars, hbfe2]
            simp [joinSp]
          · obtain ⟨ext2, R, hR⟩ := xmlMergeAux_pending B ps (bf ++ [b.txt]) b.e (by simp)
            obtain ⟨v, hv⟩ := joinSp_cons_ex b.txt ext2
            refine ⟨Q, R, w, v, ?_⟩
            rw [hm, show xmlMergeAux st1 (b :: B) =
                xmlMergeAux (xmlStep st1 b) B from rfl, heq, hR, hps1, hpars, hbfe2]
            rw [show (([] : List Str) ++ [b.txt]) ++ ext2 = b.txt :: ext2 by simp, hv]
            simp
      · -- buffer still holds ... ++ [a.txt]: the gap flush emits it now
        obtain ⟨ps, bf, hps, hstep⟩ := xmlStep_shape st1 b
        have hcond : (gapBig st1.lastEnd b.s && !st1.buf.isEmpty) = true := by
          rw [hle1, hbufp]
          simp [hgap]
        rcases hps with ⟨_, hps1, hbf1⟩ | ⟨hc, _, _⟩
        · have hw2 : ∃ w2, joinSp st1.buf = w2 ++ a.txt := by
            rw [hbufp]
            by_cases hw : w = []
            · exact ⟨[], by simp [hw, joinSp]⟩
            · exact ⟨joinSp w ++ [' '], by rw [joinSp_snoc _ _ hw]; simp⟩
          obtain ⟨w2, hw2⟩ := hw2
          rcases hstep with ⟨_, heq⟩ | ⟨_, heq⟩
          · obtain ⟨ext2, hext2⟩ := xmlMergeAux_paras_ext B (xmlStep st1 b)
            refine ⟨st1.paras, ext2, w2, [], ?_⟩
            rw [hm, show xmlMergeAux st1 (b :: B) =
                xmlMergeAux (xmlStep st1 b) B from rfl, hext2, heq, hps1, hbf1, hw2]
            simp [joinSp]
          · obtain ⟨ext2, R, hR⟩ := xmlMergeAux_pending B ps (bf ++ [b.txt]) b.e (by simp)
            obtain ⟨v, hv⟩ := joinSp_cons_ex b.txt ext2
            refine ⟨st1.paras, R, w2, v, ?_⟩
            rw [hm, show xmlMergeAux st1 (b :: B) =
                xmlMergeAux (xmlStep st1 b) B from rfl, heq, hR, hps1, hbf1, hw2]
            rw [show (([] : List Str) ++ [b.txt]) ++ ext2 = b.txt :: ext2 by simp, hv]
            simp
        · rw [hcond] at hc; cases hc
  obtain ⟨Q, R, w, v, hdec⟩ := hkey
  obtain ⟨ca, ta, hta, hcsa⟩ := xmlSorted_txt nodes a (by rw [hL]; simp)
  obtain ⟨cb, tb, htb, hcsb⟩ := xmlSorted_txt nodes b (by rw [hL]; simp)
  have h1 : pyStrip (w ++ a.txt) ≠ [] :=
    pyStrip_ne_nil _ ca (List.mem_append_right w (by rw [hta]; simp)) hcsa
  have h2 : pyStrip (b.txt ++ v) ≠ [] :=
    pyStrip_ne_nil _ cb (List.mem_append_left v (by rw [htb]; simp)) hcsb
  refine ⟨⟨Q, R, w, v, hdec⟩, ?_⟩
  rw [hdec]
  exact finalParas_two Q R _ _ h1 h2

set_option maxHeartbeats 1000000 in
/-- C5 witness: two lines 9 seconds apart produce two final paragraphs
split exactly at the gap. -/
theorem c5_gap_split_witness :
    (∃ Q R w v,
        xmlMergeParas (xmlSorted
          [(⟨⟨0, 1⟩, ⟨1, 1⟩, ("one".data)⟩ : XmlNode), ⟨⟨10, 1⟩, ⟨1, 1⟩, ("two".data)⟩]) =
          Q ++ (w ++ ("one".data)) :: (("two".data) ++ v) :: R) ∧
    2 ≤ (finalParas (xmlMergeParas (xmlSorted
        [(⟨⟨0, 1⟩, ⟨1, 1⟩, ("one".data)⟩ : XmlNode),
         ⟨⟨10, 1⟩, ⟨1, 1⟩, ("two".data)⟩]))).length :=
  c5_gap_split _ []
    ⟨⟨0, 1⟩, ⟨1, 1⟩, ("one".data)⟩ ⟨⟨10, 1⟩, ⟨11, 1⟩, ("two".data)⟩ []
    (by decide) (by decide)

theorem hasPrefB_length_le : ∀ (p s : Str), hasPrefB p s = true → p.length ≤ s.length := by
  intro p
  induction p with
  | nil => intro s _; simp
  | cons a p ih =>
    intro s h
    cases s with
    | nil => simp [hasPrefB] at h
    | cons b s2 =>
      simp only [hasPrefB, Bool.and_eq_true] at h
      simpa using ih s2 h.2

theorem hasPrefB_append_drop : ∀ (u v s : Str), hasPrefB (u ++ v) s = true →
    hasPrefB v (s.drop u.length) = true := by
  intro u
  induction u with
  | nil => intro v s h; simpa using h
  | cons a u ih =>
    intro v s h
    cases s with
    | nil => simp [hasPrefB] at h
    | cons b s2 =>
      simp only [List.cons_append, hasPrefB, Bool.and_eq_true] at h
      simpa using ih v s2 h.2

theorem containsB_iff : ∀ (s p : Str),
    containsB s p = true ↔ ∃ i, i ≤ s.length ∧ hasPrefB p (s.drop i) = true := by
  intro s
  induction s with
  | nil =>
    intro p
    constructor
    · intro h
      refine ⟨0, by simp, ?_⟩
      simpa [containsB] using h
    · rintro ⟨i, _, hp⟩
      simp only [List.drop_nil] at hp
      simpa [containsB] using hp
  | cons c r ih =>
    intro p
    rw [show containsB (c :: r) p = (hasPrefB p (c :: r) || containsB r p) from rfl]
    rw [Bool.or_eq_true]
    constructor
    · intro h
      rcases h with h | h
      · exact ⟨0, by simp, by simpa using h⟩
      · obtain ⟨i, hi, hp⟩ := (ih p).mp h
        exact ⟨i + 1, by simp; omega, by simpa using hp⟩
    · rintro ⟨i, hi, hp⟩
      cases i with
      | zero =>
        left
        simpa using hp
      | succ j =>
        right
        refine (ih p).mpr ⟨j, ?_, by simpa using hp⟩
        simp at hi
        omega

theorem findFrom_none (s p : Str) (start : Nat) (h : containsB s p = false) :
    findFrom s p start = none := by
  simp only [findFrom]
  rw [List.find?_eq_none]
  intro i hi
  simp only [Bool.and_eq_true, decide_eq_true_eq, not_and]
  intro _ hocc
  have hc : containsB s p = true :=
    (containsB_iff s p).mpr ⟨i, Nat.lt_succ_iff.mp (List.mem_range.mp hi), hocc⟩
  rw [h] at hc
  cases hc

theorem scanPat_none (html p : Str) (h : containsB html p = false) :
    ∀ (fuel start : Nat), scanPat html p fuel start = none := by
  intro fuel start
  cases fuel with
  | zero => rfl
  | succ n => simp [scanPat, findFrom_none html p start h]

theorem contains_var_anchor (html : Str) (h : containsB html prPat2 = true) :
    containsB html prPat1 = true := by
  obtain ⟨i, hi, hp2⟩ := (containsB_iff html prPat2).mp h
  have hlen := hasPrefB_length_le _ _ hp2
  have hp1 : hasPrefB prPat1 ((html.drop i).drop (("var ".data)).length) = true :=
    hasPrefB_append_drop ("var ".data) prPat1 (html.drop i) hp2
  rw [List.drop_drop] at hp1
  have hplen : prPat2.length = 30 := by decide
  have hdlen : (html.drop i).length = html.length - i := List.length_drop i html
  refine (containsB_iff html prPat1).mpr ⟨i + 4, by omega, ?_⟩
  simpa [Nat.add_comm] using hp1

/-- C10: on a page where the player response appears only in JSON-key form
(`"ytInitialPlayerResponse":`) — so the page contains neither the
assignment anchor `ytInitialPlayerResponse = ` nor the literal character
sequence `"ytInitialPlayerResponse"\s*:\s*` that the third pattern searches
verbatim (its `\s*` is not interpreted as a regex) —
`get_yt_initial_player_response` returns `none`. -/
theorem c10_player_response_key_form :
    ∀ html : Str, containsB html prPat1 = false → containsB html prPat3 = false →
      get_yt_initial_player_response html = none := by
  intro html h1 h3
  have h2 : containsB html prPat2 = false := by
    cases hc : containsB html prPat2
    · rfl
    · rw [contains_var_anchor html hc] at h1
      cases h1
  simp [get_yt_initial_player_response,
    scanPat_none html prPat1 h1 (html.length + 1) 0,
    scanPat_none html prPat2 h2 (html.length + 1) 0,
    scanPat_none html prPat3 h3 (html.length + 1) 0]

/-- C10 witness: a concrete page holding the player response only as a
JSON object key satisfies both hypotheses and yields `none`. -/
theorem c10_player_response_key_form_witness :
    containsB (("\x7b\"ytInitialPlayerResponse\":\x7b\"videoDetails\":\x7b\x7d\x7d\x7d").data) prPat1 = false ∧
    containsB (("\x7b\"ytInitialPlayerResponse\":\x7b\"videoDetails\":\x7b\x7d\x7d\x7d").data) prPat3 = false ∧
    get_yt_initial_player_response
      (("\x7b\"ytInitialPlayerResponse\":\x7b\"videoDetails\":\x7b\x7d\x7d\x7d").data) = none :=
  ⟨by decide, by decide,
   c10_player_response_key_form _ (by decide) (by decide)⟩
